import Mathlib

/-!
# ghbackup: a verification development

A shallow embedding of `main.go` of `daaku/ghbackup` (a GitHub repository
backup command) and theorems about it.

Conventions of the embedding.

* A Go `string` is the list of its code units (`GoString`); an ASCII literal
  is written `"text".toList`.
* A Go `error` value is a `GoError`; `nil` is `none`.
* The operating system and the git transport are an explicit world: a state
  type `σ` and the four operations `cloneOrFetch` calls.  Every operation is
  an arbitrary function of the state, so a statement quantified over worlds
  covers every outcome of the filesystem and of the transport.
* `filepath.Join` and `filepath.Clean` follow the Unix implementation of the
  Go standard library (separator `/`, no volume names).
* Go `int` is 64 bits wide and the limits of the Go run time are those of
  linux/amd64; whether the machine has the memory for the queue and for the
  workers is an explicit input (`Memory`).
* Channels and goroutines are seen through the sequence of operations the
  producer (`run`) and one consumer (`refresh`) perform; a worker that has
  received a job finishes it, so that a send completes whenever a worker runs.
-/

namespace Ghbackup

/-! ## Data model -/

/-- A Go string, as the list of its code units. -/
abbrev GoString := List Char

/-- Go `error` values that the program can observe. -/
inductive GoError where
  /-- an error for which `os.IsNotExist` reports true -/
  | notExist : GoError
  /-- the sentinel `git.NoErrAlreadyUpToDate` -/
  | noErrAlreadyUpToDate : GoError
  /-- the value of `errors.New(msg)` -/
  | errorsNew (msg : String) : GoError
  /-- any other error of the operating system, the transport or the API -/
  | other (code : Nat) : GoError
  /-- the value of `errors.WithStack(cause)` for a non-nil cause -/
  | withStack (cause : GoError) : GoError
  deriving DecidableEq, Repr

/-- The function `os.IsNotExist`. -/
def osIsNotExist : GoError → Bool
  | GoError.notExist => true
  | _ => false

/-- The function `errors.WithStack`: nil stays nil, anything else is wrapped. -/
def errorsWithStack : Option GoError → Option GoError
  | none => none
  | some e => some (GoError.withStack e)

/-- The struct `refreshJob`. -/
structure refreshJob where
  repo : GoString
  dest : GoString
  deriving DecidableEq, Repr

/-- The operating system and the git transport, as seen by `cloneOrFetch`. -/
structure World (σ : Type) where
  /-- the error of `os.Stat(path)` -/
  osStat : σ → GoString → Option GoError
  /-- the effect and error of `git.PlainClone(path, isBare, &CloneOptions{URL: url})` -/
  plainClone : σ → GoString → Bool → GoString → σ × Option GoError
  /-- the error of `git.PlainOpen(path)` -/
  plainOpen : σ → GoString → Option GoError
  /-- the effect and error of `repo.Fetch(&FetchOptions{RefSpecs: specs})` on the
  repository opened at `path` -/
  fetch : σ → GoString → List GoString → σ × Option GoError

/-- A call that `cloneOrFetch` makes to the outside world. -/
inductive Action where
  | osStat (path : GoString) : Action
  | plainClone (path : GoString) (isBare : Bool) (url : GoString) : Action
  | plainOpen (path : GoString) : Action
  | fetch (path : GoString) (refSpecs : List GoString) : Action
  deriving DecidableEq, Repr

/-- The two ref-specs of the fetch. -/
def fetchRefSpecs : List GoString :=
  ["+refs/heads/master:refs/heads/master".toList,
   "+refs/heads/*:refs/remotes/origin/*".toList]

/-- What one call of `cloneOrFetch` leaves behind. -/
structure Result (σ : Type) where
  /-- the world after the call -/
  state : σ
  /-- the calls made, in order -/
  trace : List Action
  /-- the returned error -/
  err : Option GoError

/-! ## Mirror transition -/

/-- The function `cloneOrFetch`. -/
def cloneOrFetch {σ : Type} (w : World σ) (job : refreshJob) (s : σ) : Result σ :=
  match w.osStat s job.dest with
  | some err =>
    if !osIsNotExist err then
      ⟨s, [Action.osStat job.dest], errorsWithStack (some err)⟩
    else
      let r := w.plainClone s job.dest true job.repo
      ⟨r.1, [Action.osStat job.dest, Action.plainClone job.dest true job.repo],
        errorsWithStack r.2⟩
  | none =>
    match w.plainOpen s job.dest with
    | some err =>
      ⟨s, [Action.osStat job.dest, Action.plainOpen job.dest], errorsWithStack (some err)⟩
    | none =>
      let r := w.fetch s job.dest fetchRefSpecs
      let tr := [Action.osStat job.dest, Action.plainOpen job.dest,
        Action.fetch job.dest fetchRefSpecs]
      match r.2 with
      | some err =>
        if err ≠ GoError.noErrAlreadyUpToDate then
          ⟨r.1, tr, errorsWithStack (some err)⟩
        else
          ⟨r.1, tr, none⟩
      | none => ⟨r.1, tr, none⟩

/-- The trace contains a clone. -/
def performsClone (tr : List Action) : Prop :=
  ∃ p b u, Action.plainClone p b u ∈ tr

/-- The trace contains an open of an existing repository. -/
def performsOpen (tr : List Action) : Prop :=
  ∃ p, Action.plainOpen p ∈ tr

/-- The trace contains a fetch. -/
def performsFetch (tr : List Action) : Prop :=
  ∃ p rs, Action.fetch p rs ∈ tr

/-- The trace contains an open and, later, a fetch. -/
def performsOpenThenFetch (tr : List Action) : Prop :=
  ∃ p q rs, List.Sublist [Action.plainOpen p, Action.fetch q rs] tr

/-! ## Worker -/

/-- What one worker does, as a sequence of observable steps. -/
inductive WorkerEvent where
  /-- a call `cloneOrFetch(job)` with the calls it made and the error it returned -/
  | invoke (job : refreshJob) (trace : List Action) (err : Option GoError) : WorkerEvent
  /-- the line written to standard error for a failed job: the job's `repo` and the error -/
  | report (repo : GoString) (err : GoError) : WorkerEvent
  /-- the deferred `wg.Done()` -/
  | wgDone : WorkerEvent
  deriving DecidableEq, Repr

/-- The body of the `for job := range jobs` loop of `refresh`, over the jobs the
channel delivers to this worker before it is closed and drained. -/
def refreshLoop {σ : Type} (w : World σ) : List refreshJob → σ → σ × List WorkerEvent
  | [], s => (s, [])
  | job :: rest, s =>
    let r := cloneOrFetch w job s
    let here :=
      match r.err with
      | some err => [WorkerEvent.invoke job r.trace r.err, WorkerEvent.report job.repo err]
      | none => [WorkerEvent.invoke job r.trace r.err]
    let t := refreshLoop w rest r.state
    (t.1, here ++ t.2)

/-- The function `refresh`: the loop, then the deferred `wg.Done()`. -/
def refresh {σ : Type} (w : World σ) (jobs : List refreshJob) (s : σ) : σ × List WorkerEvent :=
  let t := refreshLoop w jobs s
  (t.1, t.2 ++ [WorkerEvent.wgDone])

/-- The jobs on which `cloneOrFetch` was invoked, in order. -/
def invokedJobs : List WorkerEvent → List refreshJob
  | [] => []
  | WorkerEvent.invoke job _ _ :: rest => job :: invokedJobs rest
  | _ :: rest => invokedJobs rest

/-- The error reports written, in order. -/
def reports : List WorkerEvent → List (GoString × GoError)
  | [] => []
  | WorkerEvent.report repo err :: rest => (repo, err) :: reports rest
  | _ :: rest => reports rest

/-- The error each job's `cloneOrFetch` returns when the jobs are processed one
after the other from state `s`. -/
def jobErrors {σ : Type} (w : World σ) : List refreshJob → σ → List (Option GoError)
  | [], _ => []
  | job :: rest, s =>
    (cloneOrFetch w job s).err :: jobErrors w rest (cloneOrFetch w job s).state

/-- The reports a sequence of jobs with the given errors calls for: one per job
with an error, naming the job's `repo`. -/
def expectedReports : List refreshJob → List (Option GoError) → List (GoString × GoError)
  | job :: jobs, some err :: errs => (job.repo, err) :: expectedReports jobs errs
  | _ :: jobs, none :: errs => expectedReports jobs errs
  | _, _ => []

/-! ## Strings and paths -/

/-- The function `strings.Contains`: some suffix of `s` starts with `substr`. -/
def stringsContains : GoString → GoString → Bool
  | [], substr => substr.isEmpty
  | c :: s, substr => substr.isPrefixOf (c :: s) || stringsContains s substr

/-- The function `strings.Join`. -/
def stringsJoin : List GoString → GoString → GoString
  | [], _ => []
  | [e], _ => e
  | e :: rest, sep => e ++ sep ++ stringsJoin rest sep

/-- The constant `filepath.Separator` (Unix). -/
def Separator : Char := '/'

/-- The function `os.IsPathSeparator` (Unix). -/
def isPathSeparator (c : Char) : Bool := c == Separator

/-- The backtracking loop of the `..` case of `filepath.Clean`:
`for out.w > dotdot && !os.IsPathSeparator(out.index(out.w)) { out.w-- }`. -/
def backtrack (out : List Char) (dotdot : Nat) : Nat → Nat
  | 0 => 0
  | w + 1 =>
    if w + 1 > dotdot ∧ !isPathSeparator (out.getD (w + 1) Separator) then
      backtrack out dotdot w
    else
      w + 1

/-- The state of the main loop of `filepath.Clean`: the bytes written so far
(`out`, of length `out.w`) and the index `dotdot`. -/
structure CleanState where
  out : List Char
  dotdot : Nat
  deriving DecidableEq, Repr

/-- The test `r+1 == n || os.IsPathSeparator(path[r+1])` of `filepath.Clean`, on
`path[r+1:]`: the path element ends here. -/
def atElementEnd : List Char → Bool
  | [] => true
  | b :: _ => isPathSeparator b

/-- The statement `if rooted && out.w != 1 || !rooted && out.w != 0
{ out.append(Separator) }` of `filepath.Clean`. -/
def appendSeparator (rooted : Bool) (out : List Char) : List Char :=
  if (rooted ∧ out.length ≠ 1) ∨ (!rooted ∧ out.length ≠ 0) then out ++ [Separator] else out

/-- One turn of the main loop `for r < n` of `filepath.Clean`, with `path[r]` =
`c` and `path[r+1:]` = `rest`: the part of the path left to read and the new
state. -/
def cleanStep (rooted : Bool) (c : Char) (rest : List Char) (st : CleanState) :
    List Char × CleanState :=
  if isPathSeparator c then
    -- empty path element
    (rest, st)
  else if c = '.' ∧ atElementEnd rest then
    -- . element
    (rest, st)
  else if c = '.' ∧ rest.head? = some '.' ∧ atElementEnd rest.tail then
    -- .. element: remove to last separator
    if st.out.length > st.dotdot then
      -- can backtrack
      (rest.tail, ⟨st.out.take (backtrack st.out st.dotdot (st.out.length - 1)), st.dotdot⟩)
    else if !rooted then
      -- cannot backtrack, but not rooted, so append .. element
      let out1 := if st.out.length > 0 then st.out ++ [Separator] else st.out
      (rest.tail, ⟨out1 ++ ['.', '.'], (out1 ++ ['.', '.']).length⟩)
    else
      (rest.tail, st)
  else
    -- real path element: add slash if needed, copy element
    ((c :: rest).dropWhile (fun b => !isPathSeparator b),
      ⟨appendSeparator rooted st.out ++ (c :: rest).takeWhile (fun b => !isPathSeparator b),
        st.dotdot⟩)

/-- The main loop `for r < n` of `filepath.Clean`; `p` is `path[r:]`.  Every
turn reads at least one byte, so a fuel of `len(path)` is never used up. -/
def cleanLoop (rooted : Bool) : Nat → List Char → CleanState → CleanState
  | 0, _, st => st
  | _ + 1, [], st => st
  | fuel + 1, c :: rest, st =>
    cleanLoop rooted fuel (cleanStep rooted c rest st).1 (cleanStep rooted c rest st).2

/-- The main loop run on `p` with exactly the fuel that `p` can use up. -/
def cleanFrom (rooted : Bool) (p : List Char) (st : CleanState) : CleanState :=
  cleanLoop rooted p.length p st

/-- The function `filepath.Clean` (Unix). -/
def filepathClean (path : GoString) : GoString :=
  match path with
  | [] => ['.']
  | c :: rest =>
    let rooted := isPathSeparator c
    let st :=
      if rooted then cleanLoop rooted path.length rest ⟨[Separator], 1⟩
      else cleanLoop rooted path.length path ⟨[], 0⟩
    -- Turn empty string into "."
    if st.out.length = 0 then ['.'] else st.out

/-- The function `filepath.Join` (Unix): the elements from the first non-empty one
on, joined with the separator and cleaned. -/
def filepathJoin : List GoString → GoString
  | [] => []
  | e :: rest =>
    if e ≠ [] then filepathClean (stringsJoin (e :: rest) [Separator])
    else filepathJoin rest

/-- What holds of the output written for a rooted path: it starts with the
separator, and `dotdot` protects that separator. -/
def RootedInv (st : CleanState) : Prop :=
  st.out.head? = some Separator ∧ 1 ≤ st.dotdot

/-- What holds of the output written for a path that is not rooted: it is not
`.`, does not start with `./` and does not start with the separator. -/
def RelativeOut (out : List Char) : Prop :=
  out ≠ ['.'] ∧ out.take 2 ≠ ['.', Separator] ∧ out.head? ≠ some Separator

/-- What holds of the state for a path that is not rooted. -/
def RelativeInv (st : CleanState) : Prop :=
  st.dotdot ≠ 1 ∧ RelativeOut st.out

/-- A name that is a single ordinary path element: not empty, without a
separator, and neither `.` nor `..`. -/
def plainName (name : GoString) : Prop :=
  name ≠ [] ∧ Separator ∉ name ∧ name ≠ ['.'] ∧ name ≠ ['.', '.']

instance (name : GoString) : Decidable (plainName name) := by
  unfold plainName
  infer_instance

/-- The directory entry `name` directly under the directory whose cleaned path
is `cleanRoot`: the cleaned path, one separator, the name; the current directory
`.` is not written and the root directory `/` brings its own separator. -/
def entryUnder (cleanRoot name : GoString) : GoString :=
  if cleanRoot = ['.'] then name
  else if cleanRoot = [Separator] then Separator :: name
  else cleanRoot ++ Separator :: name

/-! ## Enumeration and orchestration -/

/-- The fields of `github.Repository` that `run` reads.  Both are set in every
record of a repository listing. -/
structure Repository where
  Name : GoString
  SSHURL : GoString
  deriving DecidableEq, Repr

/-- The result of `client.Repositories.List` for one page: an error, or the
records of the page and `resp.NextPage`. -/
abbrev ListResult := Except GoError (List Repository × Int)

/-- The listing service: the answer to a request for a page. -/
abbrev Listing := Int → ListResult

/-- The values of the command-line flags after parsing. -/
structure Flags where
  token : GoString
  parallel : Int
  dest : GoString
  filter : GoString
  deriving DecidableEq, Repr

/-- The value of a Go `int` (64 bits, two's complement) for an exact result. -/
def wrapInt (x : Int) : Int := (x + 2 ^ 63) % 2 ^ 64 - 2 ^ 63

/-- The value of `int32(x)`: the low 32 bits, two's complement.  It is the
counter that `sync.WaitGroup` keeps after `Add(x)` on a fresh group. -/
def wrapInt32 (x : Int) : Int := (x + 2 ^ 31) % 2 ^ 32 - 2 ^ 31

/-- The size of a `refreshJob` (two strings) in bytes. -/
def jobSize : Int := 32

/-- The constant `maxAlloc` of the Go run time. -/
def maxAlloc : Int := 2 ^ 48

/-- The constant `hchanSize` of the Go run time. -/
def hchanSize : Int := 96

/-- The test of `makechan` that ends in the panic `makechan: size out of range`. -/
def makechanPanics (capacity : Int) : Bool :=
  decide (capacity < 0 ∨ capacity * jobSize > maxAlloc - hchanSize)

/-- The memory of the machine, as far as `run` asks for it. -/
structure Memory where
  /-- there is memory for the buffer of a channel of this capacity -/
  queueFits : Int → Bool
  /-- there is memory for this many goroutines -/
  workersFit : Nat → Bool

/-- The body of `for _, repo := range repos` for one record: nothing when the
filter excludes the record, otherwise the job sent on the channel. -/
def jobFor (dest filter : GoString) (repo : Repository) : Option refreshJob :=
  if filter ≠ [] ∧ !stringsContains repo.Name filter then
    none
  else
    some { repo := repo.SSHURL, dest := filepathJoin [dest, repo.Name] }

/-- The loop `for _, repo := range repos`: the jobs sent for the records of one
page, in order. -/
def jobsOfPage (dest filter : GoString) (repos : List Repository) : List refreshJob :=
  repos.filterMap (jobFor dest filter)

/-- What `run` does, as a sequence of observable steps. -/
inductive RunEvent where
  /-- the call `make(chan refreshJob, capacity)` -/
  | makeChan (capacity : Int) : RunEvent
  /-- the call `wg.Add(n)` -/
  | wgAdd (n : Int) : RunEvent
  /-- one `go refresh(&wg, jobs)` -/
  | spawn : RunEvent
  /-- one `client.Repositories.List` for the page -/
  | list (page : Int) : RunEvent
  /-- one `jobs <- job` that completes -/
  | send (job : refreshJob) : RunEvent
  /-- the call `close(jobs)` -/
  | close : RunEvent
  /-- the call `wg.Wait()` -/
  | wgWait : RunEvent
  deriving DecidableEq, Repr

/-- How `run` ends. -/
inductive RunOutcome where
  /-- the function returned this error value -/
  | returned (err : Option GoError) : RunOutcome
  /-- a run-time panic -/
  | panicked (msg : String) : RunOutcome
  /-- a fatal error of the run time -/
  | fatal (msg : String) : RunOutcome
  /-- a send that no worker will ever receive: the function never returns -/
  | blocked : RunOutcome
  /-- a `wg.Wait()` on a counter that no worker will bring to zero: the function
  never returns -/
  | waitBlocked : RunOutcome
  /-- more workers than the counter of the wait group holds: `wg.Wait()` does
  not wait for all of them and the `wg.Done()` of a worker panics; which comes
  first is up to the scheduler -/
  | waitGroupMismatch : RunOutcome
  /-- the listing loop was still running when the fuel ran out -/
  | outOfFuel : RunOutcome
  deriving DecidableEq, Repr

/-- The end of `run` on the success path: `close(jobs)`, then `wg.Wait()` with
`workers` workers running and a wait-group counter of `counter`.  Every worker
leaves its loop once the queue is closed and drained and then takes one off the
counter; the wait returns when the counter is zero. -/
def closeAndWait (workers : Nat) (counter : Int) : List RunEvent × RunOutcome :=
  if counter = workers then
    ([RunEvent.close, RunEvent.wgWait], RunOutcome.returned none)
  else if workers = 0 then
    ([RunEvent.close, RunEvent.wgWait], RunOutcome.waitBlocked)
  else
    ([RunEvent.close, RunEvent.wgWait], RunOutcome.waitGroupMismatch)

/-- The listing loop of `run` (`for { ... }`), from the request for `page` on,
followed by the end of `run`.  With a worker running every send completes; with
no worker only the sends for which the buffer of the channel has `room` left
complete, and the next one never does. -/
def listLoop (flags : Flags) (svc : Listing) (workers : Nat) (counter : Int) :
    Nat → Int → Nat → List RunEvent → List RunEvent × RunOutcome
  | 0, _, _, ev => (ev, RunOutcome.outOfFuel)
  | fuel + 1, page, room, ev =>
    match svc page with
    | Except.error err =>
      (ev ++ [RunEvent.list page], RunOutcome.returned (errorsWithStack (some err)))
    | Except.ok (repos, nextPage) =>
      let jobs := jobsOfPage flags.dest flags.filter repos
      if workers = 0 ∧ room < jobs.length then
        (ev ++ [RunEvent.list page] ++ (jobs.take room).map RunEvent.send,
          RunOutcome.blocked)
      else
        let ev1 := ev ++ [RunEvent.list page] ++ jobs.map RunEvent.send
        if nextPage = 0 then
          (ev1 ++ (closeAndWait workers counter).1, (closeAndWait workers counter).2)
        else
          listLoop flags svc workers counter fuel nextPage (room - jobs.length) ev1

/-- The function `run`, on the parsed flags and the listing service. -/
def run (mem : Memory) (flags : Flags) (svc : Listing) (fuel : Nat) :
    List RunEvent × RunOutcome :=
  if flags.token = [] then
    ([], RunOutcome.returned (some (GoError.errorsNew "-token must be provided")))
  else if flags.dest = [] then
    ([], RunOutcome.returned (some (GoError.errorsNew "-dest must be provided")))
  else
    let capacity := wrapInt (flags.parallel * 10)
    if makechanPanics capacity then
      ([RunEvent.makeChan capacity], RunOutcome.panicked "makechan: size out of range")
    else if 0 < capacity ∧ !mem.queueFits capacity then
      ([RunEvent.makeChan capacity], RunOutcome.fatal "out of memory")
    else
      let counter := wrapInt32 flags.parallel
      if counter < 0 then
        ([RunEvent.makeChan capacity, RunEvent.wgAdd flags.parallel],
          RunOutcome.panicked "sync: negative WaitGroup counter")
      else
        let workers := flags.parallel.toNat
        if 0 < workers ∧ !mem.workersFit workers then
          ([RunEvent.makeChan capacity, RunEvent.wgAdd flags.parallel],
            RunOutcome.fatal "out of memory")
        else
          listLoop flags svc workers counter fuel 0 capacity.toNat
            ([RunEvent.makeChan capacity, RunEvent.wgAdd flags.parallel] ++
              List.replicate workers RunEvent.spawn)

/-- The function `main`: the exit status of the process, if it exits. -/
def main (mem : Memory) (flags : Flags) (svc : Listing) (fuel : Nat) : Option Nat :=
  match (run mem flags svc fuel).2 with
  | RunOutcome.returned (some _) => some 1
  | RunOutcome.returned none => some 0
  | RunOutcome.panicked _ => some 2
  | RunOutcome.fatal _ => some 2
  | _ => none

/-- The pages requested, in order. -/
def listedPages : List RunEvent → List Int
  | [] => []
  | RunEvent.list page :: rest => page :: listedPages rest
  | _ :: rest => listedPages rest

/-- The jobs sent on the channel, in order. -/
def sentJobs : List RunEvent → List refreshJob
  | [] => []
  | RunEvent.send job :: rest => job :: sentJobs rest
  | _ :: rest => sentJobs rest

/-- The number of workers started. -/
def spawned (ev : List RunEvent) : Nat := ev.count RunEvent.spawn

/-- The error is one of the two configuration errors of `run`. -/
def isConfigError (err : GoError) : Prop :=
  err = GoError.errorsNew "-token must be provided" ∨
    err = GoError.errorsNew "-dest must be provided"

/-- The pages reached from `page` by following `NextPage`, each without error,
down to a page with `NextPage == 0`: the page numbers with their records. -/
inductive Pages (svc : Listing) : Int → List (Int × List Repository) → Prop where
  | last (page : Int) (repos : List Repository) :
      svc page = Except.ok (repos, 0) → Pages svc page [(page, repos)]
  | next (page nextPage : Int) (repos : List Repository)
      (rest : List (Int × List Repository)) :
      svc page = Except.ok (repos, nextPage) → nextPage ≠ 0 → Pages svc nextPage rest →
      Pages svc page ((page, repos) :: rest)


/-- The steps of the listing loop for one page that is answered without error:
the request, then one send per job of the page. -/
def pageEvents (dest filter : GoString) (pr : Int × List Repository) : List RunEvent :=
  RunEvent.list pr.1 :: (jobsOfPage dest filter pr.2).map RunEvent.send

/-! ## Concrete inputs used by the closed statements -/

/-- A job for the repository `r` of the account `o`, mirrored under `bak`. -/
def sampleJob : refreshJob :=
  { repo := "git@github.com:o/r.git".toList, dest := "bak/r".toList }

/-- A world in which the destination exists but is not a repository: the stat
succeeds and the open fails. -/
def notARepoWorld : World Unit where
  osStat := fun _ _ => none
  plainClone := fun s _ _ _ => (s, none)
  plainOpen := fun _ _ => some (GoError.other 1)
  fetch := fun s _ _ => (s, none)

/-- A repository record of the account `o` with the given name. -/
def repoNamed (name : String) : Repository :=
  { Name := name.toList, SSHURL := ("git@github.com:o/" ++ name ++ ".git").toList }

/-- The job `run` sends for `repoNamed name` with destination root `bak`. -/
def jobNamed (name : String) : refreshJob :=
  { repo := ("git@github.com:o/" ++ name ++ ".git").toList, dest := ("bak/" ++ name).toList }

/-- Flags with a token, the destination root `bak`, the given parallelism and
the given filter. -/
def sampleFlags (parallel : Int) (filter : String) : Flags :=
  { token := "t0k3n".toList, parallel := parallel, dest := "bak".toList,
    filter := filter.toList }

/-- A machine with memory for every queue and every number of workers asked for. -/
def ampleMemory : Memory where
  queueFits := fun _ => true
  workersFit := fun _ => true

/-- Flags without a token. -/
def noTokenFlags : Flags :=
  { token := [], parallel := 5, dest := "bak".toList, filter := [] }

/-- A listing of two pages: the first page holds `r1` and `r2` and names page 2
as the next one, page 2 holds `r3` and is the last. -/
def twoPages : Listing := fun page =>
  if page = 0 then Except.ok ([repoNamed "r1", repoNamed "r2"], 2)
  else if page = 2 then Except.ok ([repoNamed "r3"], 0)
  else Except.error (GoError.other 404)

/-- A listing whose first page holds `r1` and whose second page fails. -/
def failsOnSecondPage : Listing := fun page =>
  if page = 0 then Except.ok ([repoNamed "r1"], 2)
  else Except.error (GoError.other 502)

/-- A listing of one page holding `alpha`, `beta` and `gamma`. -/
def greekPage : Listing :=
  fun _ => Except.ok ([repoNamed "alpha", repoNamed "beta", repoNamed "gamma"], 0)

/-- A listing of one page holding `r1`. -/
def onePage : Listing := fun _ => Except.ok ([repoNamed "r1"], 0)

/-- A world in which nothing exists yet and every clone succeeds except the
clone into `bak/beta`, which fails; the state counts the clones attempted. -/
def oneBadCloneWorld : World Nat where
  osStat := fun _ _ => some GoError.notExist
  plainClone := fun s path _ _ =>
    (s + 1, if path = "bak/beta".toList then some (GoError.other 13) else none)
  plainOpen := fun _ _ => none
  fetch := fun s _ _ => (s, none)

/-- A world whose state is the list of destinations that hold a mirror: a clone
creates the mirror, and a fetch into a mirror finds it up to date. -/
def mirrorWorld : World (List GoString) where
  osStat := fun s path => if path ∈ s then none else some GoError.notExist
  plainClone := fun s path _ _ => (path :: s, none)
  plainOpen := fun s path => if path ∈ s then none else some (GoError.other 2)
  fetch := fun s _ _ => (s, some GoError.noErrAlreadyUpToDate)

/-- A world like `mirrorWorld` in which the remote has no branch `master` and the
transport rejects the fixed ref-spec for it. -/
def noMasterWorld : World (List GoString) where
  osStat := fun s path => if path ∈ s then none else some GoError.notExist
  plainClone := fun s path _ _ => (path :: s, none)
  plainOpen := fun s path => if path ∈ s then none else some (GoError.other 2)
  fetch := fun s _ _ => (s, some (GoError.other 128))

/-- A world that fails the clone of the next job exactly when the head of its
state says so, and then moves on to the tail. -/
def scriptedWorld : World (List Bool) where
  osStat := fun _ _ => some GoError.notExist
  plainClone := fun s _ _ _ =>
    (s.tail, if s.head? = some true then some (GoError.other 0) else none)
  plainOpen := fun _ _ => none
  fetch := fun s _ _ => (s, none)

/-! ## Theorems: mirror transition -/

theorem cloneOrFetch_trace_cases {σ : Type} (w : World σ) (job : refreshJob) (s : σ) :
    ((∃ e, w.osStat s job.dest = some e ∧ osIsNotExist e = false) ∧
        (cloneOrFetch w job s).trace = [Action.osStat job.dest]) ∨
    ((∃ e, w.osStat s job.dest = some e ∧ osIsNotExist e = true) ∧
        (cloneOrFetch w job s).trace =
          [Action.osStat job.dest, Action.plainClone job.dest true job.repo]) ∨
    ((w.osStat s job.dest = none ∧ ∃ e, w.plainOpen s job.dest = some e) ∧
        (cloneOrFetch w job s).trace = [Action.osStat job.dest, Action.plainOpen job.dest]) ∨
    ((w.osStat s job.dest = none ∧ w.plainOpen s job.dest = none) ∧
        (cloneOrFetch w job s).trace =
          [Action.osStat job.dest, Action.plainOpen job.dest,
            Action.fetch job.dest fetchRefSpecs]) := by
  unfold cloneOrFetch
  cases hs : w.osStat s job.dest with
  | some e =>
    cases hn : osIsNotExist e with
    | false => left; simp [hn]
    | true => right; left; simp [hn]
  | none =>
    cases ho : w.plainOpen s job.dest with
    | some e => right; right; left; simp
    | none =>
      right; right; right
      refine ⟨⟨rfl, rfl⟩, ?_⟩
      simp only
      split
      · split <;> rfl
      · rfl

theorem performsFetch_of_openThenFetch (tr : List Action)
    (h : performsOpenThenFetch tr) : performsFetch tr := by
  obtain ⟨p, q, rs, hsub⟩ := h
  exact ⟨q, rs, hsub.subset (by simp)⟩

theorem cloneOrFetch_fetch_iff {σ : Type} (w : World σ) (job : refreshJob) (s : σ) :
    performsFetch (cloneOrFetch w job s).trace ↔
      (w.osStat s job.dest = none ∧ w.plainOpen s job.dest = none) := by
  rcases cloneOrFetch_trace_cases w job s with
    ⟨⟨e, he, hn⟩, ht⟩ | ⟨⟨e, he, hn⟩, ht⟩ | ⟨⟨hs, e, ho⟩, ht⟩ | ⟨⟨hs, ho⟩, ht⟩ <;>
  · rw [ht]
    simp [performsFetch, *]

theorem cloneOrFetch_openThenFetch_iff {σ : Type} (w : World σ) (job : refreshJob) (s : σ) :
    performsOpenThenFetch (cloneOrFetch w job s).trace ↔
      (w.osStat s job.dest = none ∧ w.plainOpen s job.dest = none) := by
  constructor
  · intro h
    exact (cloneOrFetch_fetch_iff w job s).1 (performsFetch_of_openThenFetch _ h)
  · intro h
    rcases cloneOrFetch_trace_cases w job s with
      ⟨⟨e, he, hn⟩, ht⟩ | ⟨⟨e, he, hn⟩, ht⟩ | ⟨⟨hs, e, ho⟩, ht⟩ | ⟨⟨hs, ho⟩, ht⟩
    · simp [h.1] at he
    · simp [h.1] at he
    · simp [h.2] at ho
    · rw [ht]
      exact ⟨job.dest, job.dest, fetchRefSpecs, List.Sublist.cons _ (List.Sublist.refl _)⟩

/-- C1, as amended: for every job and every outcome of the filesystem and the
transport, `cloneOrFetch` clones exactly when the existence check reports "does
not exist", opens the repository exactly when the existence check succeeds, and
fetches (after the open) exactly when the existence check and the open both
succeed; it never both clones and opens or fetches; when the existence check
fails for another reason it makes no further call; and every call it makes is
the stat of `job.dest`, the bare clone of `job.repo` into `job.dest`, the open
of `job.dest`, or the fetch with exactly the two ref-specs. -/
theorem cloneOrFetch_actions {σ : Type} (w : World σ) (job : refreshJob) (s : σ) :
    (performsClone (cloneOrFetch w job s).trace ↔
        ∃ e, w.osStat s job.dest = some e ∧ osIsNotExist e = true) ∧
    (performsOpen (cloneOrFetch w job s).trace ↔ w.osStat s job.dest = none) ∧
    (performsFetch (cloneOrFetch w job s).trace ↔
        (w.osStat s job.dest = none ∧ w.plainOpen s job.dest = none)) ∧
    (performsOpenThenFetch (cloneOrFetch w job s).trace ↔
        (w.osStat s job.dest = none ∧ w.plainOpen s job.dest = none)) ∧
    ¬ (performsClone (cloneOrFetch w job s).trace ∧
        (performsOpen (cloneOrFetch w job s).trace ∨
          performsFetch (cloneOrFetch w job s).trace)) ∧
    ((∃ e, w.osStat s job.dest = some e ∧ osIsNotExist e = false) →
        (cloneOrFetch w job s).trace = [Action.osStat job.dest]) ∧
    (∀ a ∈ (cloneOrFetch w job s).trace,
        a = Action.osStat job.dest ∨ a = Action.plainClone job.dest true job.repo ∨
        a = Action.plainOpen job.dest ∨
        a = Action.fetch job.dest
          ["+refs/heads/master:refs/heads/master".toList,
           "+refs/heads/*:refs/remotes/origin/*".toList]) := by
  have hspecs : fetchRefSpecs = ["+refs/heads/master:refs/heads/master".toList,
      "+refs/heads/*:refs/remotes/origin/*".toList] := rfl
  refine ⟨?_, ?_, cloneOrFetch_fetch_iff w job s, cloneOrFetch_openThenFetch_iff w job s,
    ?_, ?_, ?_⟩ <;>
  · rcases cloneOrFetch_trace_cases w job s with
      ⟨⟨e, he, hn⟩, ht⟩ | ⟨⟨e, he, hn⟩, ht⟩ | ⟨⟨hs, e, ho⟩, ht⟩ | ⟨⟨hs, ho⟩, ht⟩ <;>
    · rw [ht]
      simp [performsClone, performsOpen, performsFetch, hspecs, *]

/-- Witness for `cloneOrFetch_actions`: where the destination exists but cannot
be opened, the open is made and no fetch and no clone. -/
theorem cloneOrFetch_actions_witness :
    performsOpen (cloneOrFetch notARepoWorld sampleJob ()).trace ∧
    ¬ performsFetch (cloneOrFetch notARepoWorld sampleJob ()).trace ∧
    ¬ performsClone (cloneOrFetch notARepoWorld sampleJob ()).trace := by
  have h := cloneOrFetch_actions notARepoWorld sampleJob ()
  refine ⟨h.2.1.2 rfl, fun hf => ?_, fun hc => ?_⟩
  · have := (h.2.2.1.1 hf).2
    simp [notARepoWorld] at this
  · obtain ⟨e, he, _⟩ := h.1.1 hc
    simp [notARepoWorld] at he

/-- C1, as stated, fails: in a world where the destination exists (the
existence check succeeds) but the open fails, no fetch follows the open, so
"open-then-fetch is performed if and only if the existence check succeeds" is
false. -/
theorem cloneOrFetch_open_then_fetch_counterexample :
    ¬ (performsOpenThenFetch (cloneOrFetch notARepoWorld sampleJob ()).trace ↔
        notARepoWorld.osStat () sampleJob.dest = none) := by
  intro h
  have hp := h.2 rfl
  obtain ⟨p, q, rs, hsub⟩ := hp
  have hmem : Action.fetch q rs ∈ (cloneOrFetch notARepoWorld sampleJob ()).trace :=
    hsub.subset (by simp)
  simp [cloneOrFetch, notARepoWorld] at hmem

/-- C2: `cloneOrFetch` returns nil if and only if either the destination is
absent and the clone succeeds, or the destination exists, the open succeeds and
the fetch succeeds or reports "already up to date"; so "already up to date" is
never returned as an error, and any other failure of the existence check, of
the open or of the fetch gives a non-nil error. -/
theorem cloneOrFetch_nil_iff {σ : Type} (w : World σ) (job : refreshJob) (s : σ) :
    ((cloneOrFetch w job s).err = none ↔
      ((∃ e, w.osStat s job.dest = some e ∧ osIsNotExist e = true) ∧
          (w.plainClone s job.dest true job.repo).2 = none) ∨
      (w.osStat s job.dest = none ∧ w.plainOpen s job.dest = none ∧
          ((w.fetch s job.dest fetchRefSpecs).2 = none ∨
           (w.fetch s job.dest fetchRefSpecs).2 = some GoError.noErrAlreadyUpToDate))) ∧
    (w.osStat s job.dest = none → w.plainOpen s job.dest = none →
      (w.fetch s job.dest fetchRefSpecs).2 = some GoError.noErrAlreadyUpToDate →
      (cloneOrFetch w job s).err = none) ∧
    (∀ e, w.osStat s job.dest = some e → osIsNotExist e = false →
      (cloneOrFetch w job s).err = some (GoError.withStack e)) ∧
    (∀ e, w.osStat s job.dest = none → w.plainOpen s job.dest = some e →
      (cloneOrFetch w job s).err = some (GoError.withStack e)) ∧
    (∀ e, w.osStat s job.dest = none → w.plainOpen s job.dest = none →
      (w.fetch s job.dest fetchRefSpecs).2 = some e → e ≠ GoError.noErrAlreadyUpToDate →
      (cloneOrFetch w job s).err = some (GoError.withStack e)) := by
  refine ⟨?_, ?_, ?_, ?_, ?_⟩
  · unfold cloneOrFetch
    cases hs : w.osStat s job.dest with
    | some e =>
      cases hn : osIsNotExist e with
      | false => simp [hn, errorsWithStack]
      | true =>
        cases hc : (w.plainClone s job.dest true job.repo).2 <;>
          simp [hn, hc, errorsWithStack]
    | none =>
      cases ho : w.plainOpen s job.dest with
      | some e => simp [errorsWithStack]
      | none =>
        cases hf : (w.fetch s job.dest fetchRefSpecs).2 with
        | none => simp [hf]
        | some e =>
          by_cases he : e = GoError.noErrAlreadyUpToDate
          · simp [hf, he]
          · simp [hf, he, errorsWithStack]
  · intro hs ho hf
    simp [cloneOrFetch, hs, ho, hf]
  · intro e hs hn
    simp [cloneOrFetch, hs, hn, errorsWithStack]
  · intro e hs ho
    simp [cloneOrFetch, hs, ho, errorsWithStack]
  · intro e hs ho hf he
    simp [cloneOrFetch, hs, ho, hf, he, errorsWithStack]

/-! ## Theorems: worker -/

theorem invokedJobs_append (a b : List WorkerEvent) :
    invokedJobs (a ++ b) = invokedJobs a ++ invokedJobs b := by
  induction a with
  | nil => rfl
  | cons e rest ih => cases e <;> simp [invokedJobs, ih]

theorem reports_append (a b : List WorkerEvent) :
    reports (a ++ b) = reports a ++ reports b := by
  induction a with
  | nil => rfl
  | cons e rest ih => cases e <;> simp [reports, ih]

theorem refreshLoop_invokedJobs {σ : Type} (w : World σ) (jobs : List refreshJob) (s : σ) :
    invokedJobs (refreshLoop w jobs s).2 = jobs := by
  induction jobs generalizing s with
  | nil => rfl
  | cons job rest ih =>
    simp only [refreshLoop, invokedJobs_append, ih]
    cases (cloneOrFetch w job s).err <;> simp [invokedJobs]

theorem refreshLoop_reports {σ : Type} (w : World σ) (jobs : List refreshJob) (s : σ) :
    reports (refreshLoop w jobs s).2 = expectedReports jobs (jobErrors w jobs s) := by
  induction jobs generalizing s with
  | nil => rfl
  | cons job rest ih =>
    simp only [refreshLoop, reports_append, ih, jobErrors]
    cases (cloneOrFetch w job s).err <;> simp [reports, expectedReports]

theorem jobErrors_length {σ : Type} (w : World σ) (jobs : List refreshJob) (s : σ) :
    (jobErrors w jobs s).length = jobs.length := by
  induction jobs generalizing s with
  | nil => rfl
  | cons job rest ih => simp [jobErrors, ih]

theorem expectedReports_length (jobs : List refreshJob) (errs : List (Option GoError))
    (h : errs.length = jobs.length) :
    (expectedReports jobs errs).length = errs.countP Option.isSome := by
  induction jobs generalizing errs with
  | nil =>
    cases errs with
    | nil => rfl
    | cons e es => simp at h
  | cons job rest ih =>
    cases errs with
    | nil => simp at h
    | cons e es =>
      have h1 : es.length = rest.length := by simpa using h
      cases e with
      | none => simp [expectedReports, ih es h1]
      | some err => simp [expectedReports, ih es h1]

/-- C5: for every finite sequence of jobs delivered to one worker before the
queue is closed, and whatever the filesystem and the transport answer, the
worker invokes `cloneOrFetch` exactly once on every delivered job, in delivery
order and without stopping at a failure, and writes exactly one error report per
failing job, naming that job's `repo` and carrying its error, and none for a
succeeding job. -/
theorem refresh_processes_every_job {σ : Type} (w : World σ) (jobs : List refreshJob)
    (s : σ) :
    invokedJobs (refresh w jobs s).2 = jobs ∧
    (jobErrors w jobs s).length = jobs.length ∧
    reports (refresh w jobs s).2 = expectedReports jobs (jobErrors w jobs s) ∧
    (reports (refresh w jobs s).2).length = (jobErrors w jobs s).countP Option.isSome := by
  have h1 : invokedJobs (refresh w jobs s).2 = jobs := by
    simp [refresh, invokedJobs_append, refreshLoop_invokedJobs, invokedJobs]
  have h2 : reports (refresh w jobs s).2 = expectedReports jobs (jobErrors w jobs s) := by
    simp [refresh, reports_append, refreshLoop_reports, reports]
  refine ⟨h1, jobErrors_length w jobs s, h2, ?_⟩
  rw [h2]
  exact expectedReports_length jobs _ (jobErrors_length w jobs s)

/-- Isolation, on an instance: of three jobs the second fails; all three are
invoked in order and the only report names the second job's `repo`. -/
theorem refresh_isolation_example :
    invokedJobs (refresh oneBadCloneWorld
        [jobNamed "alpha", jobNamed "beta", jobNamed "gamma"] 0).2 =
      [jobNamed "alpha", jobNamed "beta", jobNamed "gamma"] ∧
    reports (refresh oneBadCloneWorld
        [jobNamed "alpha", jobNamed "beta", jobNamed "gamma"] 0).2 =
      [((jobNamed "beta").repo, GoError.withStack (GoError.other 13))] := by
  refine ⟨by decide, by decide⟩

/-- Every assignment of success or failure to the delivered jobs is the outcome
of some world. -/
theorem jobErrors_scripted (jobs : List refreshJob) (fails : List Bool)
    (h : fails.length = jobs.length) :
    (jobErrors scriptedWorld jobs fails).map Option.isSome = fails := by
  induction jobs generalizing fails with
  | nil =>
    cases fails with
    | nil => rfl
    | cons b t => simp at h
  | cons job rest ih =>
    cases fails with
    | nil => simp at h
    | cons b t =>
      have ht : t.length = rest.length := by simpa using h
      have hstate : (cloneOrFetch scriptedWorld job (b :: t)).state = t := by
        simp [cloneOrFetch, scriptedWorld, osIsNotExist]
      have herr : ((cloneOrFetch scriptedWorld job (b :: t)).err).isSome = b := by
        cases b <;> simp [cloneOrFetch, scriptedWorld, osIsNotExist, errorsWithStack]
      simp only [jobErrors, List.map_cons, hstate, herr, ih t ht]

/-! ## Theorems: filter and job construction -/

theorem stringsContains_iff (s substr : GoString) :
    stringsContains s substr = true ↔ substr <:+: s := by
  induction s with
  | nil => simp [stringsContains]
  | cons c s ih =>
    rw [stringsContains, Bool.or_eq_true, ih, List.infix_cons_iff, List.isPrefixOf_iff_prefix]

theorem listedPages_append (a b : List RunEvent) :
    listedPages (a ++ b) = listedPages a ++ listedPages b := by
  induction a with
  | nil => rfl
  | cons e rest ih => cases e <;> simp [listedPages, ih]

theorem sentJobs_append (a b : List RunEvent) :
    sentJobs (a ++ b) = sentJobs a ++ sentJobs b := by
  induction a with
  | nil => rfl
  | cons e rest ih => cases e <;> simp [sentJobs, ih]

theorem sentJobs_map_send (jobs : List refreshJob) :
    sentJobs (jobs.map RunEvent.send) = jobs := by
  induction jobs with
  | nil => rfl
  | cons j rest ih => simp [sentJobs, ih]

theorem listedPages_map_send (jobs : List refreshJob) :
    listedPages (jobs.map RunEvent.send) = [] := by
  induction jobs with
  | nil => rfl
  | cons j rest ih => simp [listedPages, ih]

theorem sentJobs_replicate_spawn (n : Nat) :
    sentJobs (List.replicate n RunEvent.spawn) = [] := by
  induction n with
  | zero => rfl
  | succ n ih => simp [List.replicate_succ, sentJobs, ih]

theorem listedPages_replicate_spawn (n : Nat) :
    listedPages (List.replicate n RunEvent.spawn) = [] := by
  induction n with
  | zero => rfl
  | succ n ih => simp [List.replicate_succ, listedPages, ih]

/-- The loop body on one record, by cases on the filter. -/
theorem jobFor_eq (dest filter : GoString) (repo : Repository) :
    jobFor dest filter repo =
      if filter = [] ∨ filter <:+: repo.Name then
        some { repo := repo.SSHURL, dest := filepathJoin [dest, repo.Name] }
      else none := by
  unfold jobFor
  by_cases hf : filter = []
  · simp [hf]
  · by_cases hc : stringsContains repo.Name filter = true
    · have := (stringsContains_iff _ _).1 hc
      simp [hf, hc, this]
    · have hn : ¬ filter <:+: repo.Name := fun h => hc ((stringsContains_iff _ _).2 h)
      simp [hf, hc, hn]

/-- The loop over the records of a page emits, in order, the jobs of exactly the
records that pass the filter. -/
theorem jobsOfPage_eq (dest filter : GoString) (repos : List Repository) :
    jobsOfPage dest filter repos =
      (repos.filter (fun r => decide (filter = [] ∨ filter <:+: r.Name))).map
        (fun r => ({ repo := r.SSHURL, dest := filepathJoin [dest, r.Name] } : refreshJob)) := by
  induction repos with
  | nil => rfl
  | cons r rest ih =>
    unfold jobsOfPage at ih ⊢
    by_cases h : filter = [] ∨ filter <:+: r.Name
    · rw [List.filterMap_cons, jobFor_eq, if_pos h, List.filter_cons_of_pos (by simpa using h),
        List.map_cons, ih]
    · rw [List.filterMap_cons, jobFor_eq, if_neg h, List.filter_cons_of_neg (by simpa using h),
        ih]

theorem sentJobs_closeAndWait (workers : Nat) (counter : Int) :
    sentJobs (closeAndWait workers counter).1 = [] := by
  unfold closeAndWait
  split_ifs <;> rfl

/-- One turn of the listing loop on a page that is answered without error sends,
after what was sent before, the jobs of the records of the page that pass the
filter, in order: all of them when a worker runs, and as many as the queue has
room for when none does. -/
theorem listLoop_turn_sends (flags : Flags) (svc : Listing) (workers : Nat) (counter : Int)
    (page : Int) (room : Nat) (ev : List RunEvent) (repos : List Repository)
    (nextPage : Int) (hsvc : svc page = Except.ok (repos, nextPage)) :
    sentJobs (listLoop flags svc workers counter 1 page room ev).1 =
      sentJobs ev ++
        (if workers = 0 then
          (jobsOfPage flags.dest flags.filter repos).take room
        else jobsOfPage flags.dest flags.filter repos) := by
  unfold listLoop
  simp only [hsvc]
  by_cases hb : workers = 0 ∧ room < (jobsOfPage flags.dest flags.filter repos).length
  · rw [if_pos hb, if_pos hb.1]
    simp only [sentJobs_append, sentJobs_map_send, sentJobs, List.append_nil]
  · rw [if_neg hb]
    have hall : (if workers = 0 then (jobsOfPage flags.dest flags.filter repos).take room
        else jobsOfPage flags.dest flags.filter repos) =
        jobsOfPage flags.dest flags.filter repos := by
      by_cases hw : workers = 0
      · rw [if_pos hw]
        exact List.take_of_length_le (by
          have := fun h => hb ⟨hw, h⟩
          omega)
      · rw [if_neg hw]
    rw [hall]
    by_cases hn : nextPage = 0
    · rw [if_pos hn]
      simp only [sentJobs_append, sentJobs_map_send, sentJobs, sentJobs_closeAndWait,
        List.append_nil]
    · rw [if_neg hn]
      simp only [listLoop, sentJobs_append, sentJobs_map_send, sentJobs, List.append_nil]

/-- C3: for every filter string and every page of repository records, the
enumeration loop of `run` emits, in the order of the records, one job for each
record that passes the filter and none for the others, where a record passes if
and only if the filter is empty or the repository name contains the filter as a
(case-sensitive) contiguous substring; the job emitted for a record has `repo` =
the record's SSH URL and `dest` = the destination root joined with the
repository name; and a turn of the listing loop of `run` sends exactly these jobs
(with no worker running, as many of them as the queue has room for).  With the
names alpha, beta, gamma and the filter "ph" the only job, of the loop and of
the whole run, is the one for alpha, and with the filter "PH" there is none. -/
theorem jobsOfPage_emits_iff (dest filter : GoString) (repos : List Repository)
    (repo : Repository) :
    jobsOfPage dest filter repos =
      (repos.filter (fun r => decide (filter = [] ∨ filter <:+: r.Name))).map
        (fun r => ({ repo := r.SSHURL, dest := filepathJoin [dest, r.Name] } : refreshJob)) ∧
    ((∃ job, jobFor dest filter repo = some job) ↔ (filter = [] ∨ filter <:+: repo.Name)) ∧
    (jobsOfPage dest filter [repo] ≠ [] ↔ (filter = [] ∨ filter <:+: repo.Name)) ∧
    (∀ job, jobFor dest filter repo = some job →
      job.repo = repo.SSHURL ∧ job.dest = filepathJoin [dest, repo.Name]) ∧
    (∀ (flags : Flags) (svc : Listing) (workers : Nat) (counter : Int) (page : Int)
        (room : Nat) (ev : List RunEvent) (nextPage : Int),
      flags.dest = dest → flags.filter = filter → svc page = Except.ok (repos, nextPage) →
      sentJobs (listLoop flags svc workers counter 1 page room ev).1 =
        sentJobs ev ++
          (if workers = 0 then
            ((repos.filter (fun r => decide (filter = [] ∨ filter <:+: r.Name))).map
              (fun r => ({ repo := r.SSHURL, dest := filepathJoin [dest, r.Name] } :
                refreshJob))).take room
          else
            (repos.filter (fun r => decide (filter = [] ∨ filter <:+: r.Name))).map
              (fun r => ({ repo := r.SSHURL, dest := filepathJoin [dest, r.Name] } :
                refreshJob)))) ∧
    jobsOfPage "bak".toList "ph".toList
      [repoNamed "alpha", repoNamed "beta", repoNamed "gamma"] = [jobNamed "alpha"] ∧
    jobsOfPage "bak".toList "PH".toList
      [repoNamed "alpha", repoNamed "beta", repoNamed "gamma"] = [] ∧
    sentJobs (run ampleMemory (sampleFlags 5 "ph") greekPage 1).1 = [jobNamed "alpha"] ∧
    sentJobs (run ampleMemory (sampleFlags 5 "") greekPage 1).1 =
      [jobNamed "alpha", jobNamed "beta", jobNamed "gamma"] := by
  refine ⟨jobsOfPage_eq dest filter repos, ?_, ?_, ?_, ?_, by decide, by decide, by decide,
    by decide⟩
  · rw [jobFor_eq]
    by_cases h : filter = [] ∨ filter <:+: repo.Name
    · simp [h]
    · simp [h]
  · rw [jobsOfPage_eq]
    by_cases h : filter = [] ∨ filter <:+: repo.Name
    · simp [h]
    · simp [h]
  · intro job h
    rw [jobFor_eq] at h
    split at h
    · simp only [Option.some.injEq] at h
      subst h
      exact ⟨rfl, rfl⟩
    · simp at h
  · intro flags svc workers counter page room ev nextPage hd hf hsvc
    rw [listLoop_turn_sends flags svc workers counter page room ev repos nextPage hsvc,
      hd, hf, jobsOfPage_eq]

/-- Witness for `jobsOfPage_emits_iff`: one turn of the listing loop on the
page alpha, beta, gamma with the filter "ph" and five workers sends the job for
alpha only. -/
theorem jobsOfPage_emits_iff_witness :
    sentJobs (listLoop (sampleFlags 5 "ph") greekPage 5 5 1 0 50 []).1 = [jobNamed "alpha"] := by
  have h := (jobsOfPage_emits_iff "bak".toList "ph".toList
    [repoNamed "alpha", repoNamed "beta", repoNamed "gamma"] (repoNamed "alpha")).2.2.2.2.1
    (sampleFlags 5 "ph") greekPage 5 5 0 50 [] 0 rfl rfl rfl
  rw [h]
  decide

/-! ## Theorems: orchestration -/

theorem closeAndWait_not_error (workers : Nat) (counter : Int) (e : GoError) :
    (closeAndWait workers counter).2 ≠ RunOutcome.returned (some e) := by
  unfold closeAndWait
  split_ifs <;> simp

theorem listLoop_error_wrapped (flags : Flags) (svc : Listing) (workers : Nat)
    (counter : Int) (fuel : Nat) (page : Int) (room : Nat) (ev : List RunEvent) (e : GoError)
    (h : (listLoop flags svc workers counter fuel page room ev).2 =
      RunOutcome.returned (some e)) :
    ∃ cause, e = GoError.withStack cause := by
  induction fuel generalizing page room ev with
  | zero => simp [listLoop] at h
  | succ fuel ih =>
    unfold listLoop at h
    cases hsvc : svc page with
    | error err =>
      simp only [hsvc, errorsWithStack, RunOutcome.returned.injEq, Option.some.injEq] at h
      exact ⟨_, h.symm⟩
    | ok pr =>
      obtain ⟨repos, nextPage⟩ := pr
      simp only [hsvc] at h
      by_cases hb : workers = 0 ∧ room < (jobsOfPage flags.dest flags.filter repos).length
      · rw [if_pos hb] at h
        simp at h
      · rw [if_neg hb] at h
        by_cases hn : nextPage = 0
        · rw [if_pos hn] at h
          exact absurd h (closeAndWait_not_error _ _ _)
        · rw [if_neg hn] at h
          exact ih _ _ _ h

/-- A run that gets past the two validations ends with a panic, a fatal error
or what the listing loop ends with. -/
theorem run_valid_cases (mem : Memory) (flags : Flags) (svc : Listing) (fuel : Nat)
    (ht : flags.token ≠ []) (hd : flags.dest ≠ []) :
    (∃ ev msg, run mem flags svc fuel = (ev, RunOutcome.panicked msg) ∧
        RunEvent.close ∉ ev ∧ RunEvent.wgWait ∉ ev) ∨
    (∃ ev msg, run mem flags svc fuel = (ev, RunOutcome.fatal msg) ∧
        RunEvent.close ∉ ev ∧ RunEvent.wgWait ∉ ev) ∨
    run mem flags svc fuel =
      listLoop flags svc flags.parallel.toNat (wrapInt32 flags.parallel) fuel 0
        (wrapInt (flags.parallel * 10)).toNat
        ([RunEvent.makeChan (wrapInt (flags.parallel * 10)), RunEvent.wgAdd flags.parallel] ++
          List.replicate flags.parallel.toNat RunEvent.spawn) := by
  unfold run
  rw [if_neg ht, if_neg hd]
  simp only
  by_cases h1 : makechanPanics (wrapInt (flags.parallel * 10)) = true
  · left
    rw [if_pos h1]
    exact ⟨_, _, rfl, by simp, by simp⟩
  · rw [if_neg h1]
    by_cases h2 : 0 < wrapInt (flags.parallel * 10) ∧
        (!mem.queueFits (wrapInt (flags.parallel * 10))) = true
    · right; left
      rw [if_pos h2]
      exact ⟨_, _, rfl, by simp, by simp⟩
    · rw [if_neg h2]
      by_cases h3 : wrapInt32 flags.parallel < 0
      · left
        rw [if_pos h3]
        exact ⟨_, _, rfl, by simp, by simp⟩
      · rw [if_neg h3]
        by_cases h4 : 0 < flags.parallel.toNat ∧
            (!mem.workersFit flags.parallel.toNat) = true
        · right; left
          rw [if_pos h4]
          exact ⟨_, _, rfl, by simp, by simp⟩
        · right; right
          rw [if_neg h4]

/-- C7: `run` returns a configuration error if and only if the token is empty
or the destination root is empty, and when it does so it has performed no step
at all: no worker started, no listing call made, no job created. -/
theorem run_config_error_iff (mem : Memory) (flags : Flags) (svc : Listing) (fuel : Nat) :
    ((∃ e, (run mem flags svc fuel).2 = RunOutcome.returned (some e) ∧ isConfigError e) ↔
      (flags.token = [] ∨ flags.dest = [])) ∧
    ((flags.token = [] ∨ flags.dest = []) →
      (run mem flags svc fuel).1 = [] ∧ spawned (run mem flags svc fuel).1 = 0 ∧
      listedPages (run mem flags svc fuel).1 = [] ∧
      sentJobs (run mem flags svc fuel).1 = []) := by
  constructor
  · constructor
    · rintro ⟨e, he, hc⟩
      by_contra hne
      push_neg at hne
      rcases run_valid_cases mem flags svc fuel hne.1 hne.2 with
        ⟨ev, msg, hr, _⟩ | ⟨ev, msg, hr, _⟩ | hr
      · rw [hr] at he
        simp at he
      · rw [hr] at he
        simp at he
      · rw [hr] at he
        obtain ⟨cause, rfl⟩ := listLoop_error_wrapped _ _ _ _ _ _ _ _ _ he
        rcases hc with hc | hc <;> simp at hc
    · intro h
      by_cases ht : flags.token = []
      · exact ⟨_, by simp [run, ht], Or.inl rfl⟩
      · have hd : flags.dest = [] := h.resolve_left ht
        exact ⟨_, by simp [run, ht, hd], Or.inr rfl⟩
  · intro h
    have hev : (run mem flags svc fuel).1 = [] := by
      by_cases ht : flags.token = []
      · simp [run, ht]
      · have hd : flags.dest = [] := h.resolve_left ht
        simp [run, ht, hd]
    rw [hev]
    exact ⟨rfl, rfl, rfl, rfl⟩

/-- Witness for `run_config_error_iff`: with an empty token `run` returns the
configuration error about the token and performs no step. -/
theorem run_config_error_iff_witness :
    (∃ e, (run ampleMemory { token := [], parallel := 5, dest := "bak".toList, filter := [] }
        twoPages 10).2 = RunOutcome.returned (some e) ∧ isConfigError e) ∧
    (run ampleMemory { token := [], parallel := 5, dest := "bak".toList, filter := [] }
        twoPages 10).1 = [] :=
  ⟨(run_config_error_iff ampleMemory _ twoPages 10).1.2 (Or.inl rfl),
    ((run_config_error_iff ampleMemory _ twoPages 10).2 (Or.inl rfl)).1⟩

theorem listLoop_error_no_drain (flags : Flags) (svc : Listing) (workers : Nat)
    (counter : Int) (fuel : Nat) (page : Int) (room : Nat) (ev : List RunEvent) (e : GoError)
    (hev : RunEvent.close ∉ ev ∧ RunEvent.wgWait ∉ ev)
    (h : (listLoop flags svc workers counter fuel page room ev).2 =
      RunOutcome.returned (some e)) :
    RunEvent.close ∉ (listLoop flags svc workers counter fuel page room ev).1 ∧
      RunEvent.wgWait ∉ (listLoop flags svc workers counter fuel page room ev).1 := by
  induction fuel generalizing page room ev with
  | zero => simp [listLoop] at h
  | succ fuel ih =>
    unfold listLoop at h ⊢
    cases hsvc : svc page with
    | error err =>
      simp only [hsvc]
      simp [hev.1, hev.2]
    | ok pr =>
      obtain ⟨repos, nextPage⟩ := pr
      simp only [hsvc] at h ⊢
      by_cases hb : workers = 0 ∧ room < (jobsOfPage flags.dest flags.filter repos).length
      · rw [if_pos hb] at h
        simp at h
      · rw [if_neg hb] at h ⊢
        by_cases hn : nextPage = 0
        · rw [if_pos hn] at h
          exact absurd h (closeAndWait_not_error _ _ _)
        · rw [if_neg hn] at h ⊢
          apply ih _ _ _ _ h
          simp [hev.1, hev.2]

/-- Whenever `run` returns an error, it has neither closed the queue nor waited
for the workers. -/
theorem run_error_no_drain (mem : Memory) (flags : Flags) (svc : Listing) (fuel : Nat)
    (e : GoError) (h : (run mem flags svc fuel).2 = RunOutcome.returned (some e)) :
    RunEvent.close ∉ (run mem flags svc fuel).1 ∧
      RunEvent.wgWait ∉ (run mem flags svc fuel).1 := by
  by_cases ht : flags.token = []
  · simp [run, ht]
  by_cases hd : flags.dest = []
  · simp [run, ht, hd]
  rcases run_valid_cases mem flags svc fuel ht hd with
    ⟨ev, msg, hr, h1, h2⟩ | ⟨ev, msg, hr, h1, h2⟩ | hr
  · rw [hr]
    exact ⟨h1, h2⟩
  · rw [hr]
    exact ⟨h1, h2⟩
  · rw [hr] at h ⊢
    apply listLoop_error_no_drain _ _ _ _ _ _ _ _ _ _ h
    simp

/-- C6, evaluated: when the listing fails on the second page, `run` returns the
(wrapped) listing error right after the failed call; the job for `r1` has been
sent, but `run` has neither closed the queue nor waited for the workers, so
nothing makes the workers process that job before `run` returns and `main`
exits with status 1. -/
theorem run_listing_error_returns_without_drain :
    run ampleMemory (sampleFlags 5 "") failsOnSecondPage 10 =
      ([RunEvent.makeChan 50, RunEvent.wgAdd 5, RunEvent.spawn, RunEvent.spawn,
        RunEvent.spawn, RunEvent.spawn, RunEvent.spawn, RunEvent.list 0,
        RunEvent.send (jobNamed "r1"), RunEvent.list 2],
       RunOutcome.returned (some (GoError.withStack (GoError.other 502)))) ∧
    RunEvent.close ∉ (run ampleMemory (sampleFlags 5 "") failsOnSecondPage 10).1 ∧
    RunEvent.wgWait ∉ (run ampleMemory (sampleFlags 5 "") failsOnSecondPage 10).1 ∧
    main ampleMemory (sampleFlags 5 "") failsOnSecondPage 10 = some 1 := by
  have h : run ampleMemory (sampleFlags 5 "") failsOnSecondPage 10 =
      ([RunEvent.makeChan 50, RunEvent.wgAdd 5, RunEvent.spawn, RunEvent.spawn,
        RunEvent.spawn, RunEvent.spawn, RunEvent.spawn, RunEvent.list 0,
        RunEvent.send (jobNamed "r1"), RunEvent.list 2],
       RunOutcome.returned (some (GoError.withStack (GoError.other 502)))) := by
    decide
  have hd := run_error_no_drain ampleMemory (sampleFlags 5 "") failsOnSecondPage 10 _
    (congrArg Prod.snd h)
  refine ⟨h, hd.1, hd.2, ?_⟩
  simp [main, h]

/-- C10, evaluated: a parallelism of -1 passes the validation of `run` and makes
the creation of the queue panic; a parallelism of zero passes it too, starts no
worker and creates a queue of capacity zero, so that the first send never
completes.  Neither depends on the memory of the machine. -/
theorem run_nonpositive_parallel (mem : Memory) :
    run mem (sampleFlags (-1) "") onePage 10 =
      ([RunEvent.makeChan (-10)], RunOutcome.panicked "makechan: size out of range") ∧
    run mem (sampleFlags 0 "") onePage 10 =
      ([RunEvent.makeChan 0, RunEvent.wgAdd 0, RunEvent.list 0], RunOutcome.blocked) ∧
    spawned (run mem (sampleFlags 0 "") onePage 10).1 = 0 ∧
    sentJobs (run mem (sampleFlags 0 "") onePage 10).1 = [] := by
  have h1 : run mem (sampleFlags (-1) "") onePage 10 =
      ([RunEvent.makeChan (-10)], RunOutcome.panicked "makechan: size out of range") := rfl
  have h2 : run mem (sampleFlags 0 "") onePage 10 =
      ([RunEvent.makeChan 0, RunEvent.wgAdd 0, RunEvent.list 0], RunOutcome.blocked) := rfl
  refine ⟨h1, h2, ?_, ?_⟩
  · rw [h2]; rfl
  · rw [h2]; rfl

/-! ## Theorems: pagination -/

theorem sentJobs_pages (dest filter : GoString) (pages : List (Int × List Repository)) :
    sentJobs (pages.flatMap (pageEvents dest filter)) =
      pages.flatMap (fun pr => jobsOfPage dest filter pr.2) := by
  induction pages with
  | nil => rfl
  | cons pr rest ih =>
    rw [List.flatMap_cons, List.flatMap_cons, sentJobs_append, ih]
    simp [pageEvents, sentJobs, sentJobs_map_send]

theorem listedPages_pages (dest filter : GoString) (pages : List (Int × List Repository)) :
    listedPages (pages.flatMap (pageEvents dest filter)) = pages.map Prod.fst := by
  induction pages with
  | nil => rfl
  | cons pr rest ih =>
    rw [List.flatMap_cons, listedPages_append, ih]
    simp [pageEvents, listedPages, listedPages_map_send]

theorem closeAndWait_matched (workers : Nat) :
    closeAndWait workers workers =
      ([RunEvent.close, RunEvent.wgWait], RunOutcome.returned none) := by
  simp [closeAndWait]

/-- With a worker to receive the jobs and a wait-group counter equal to the
number of workers, the listing loop follows the pages to the last one: it
requests each page once, sends the jobs of each page in order, then closes the
queue, waits for the workers and returns nil. -/
theorem listLoop_pages (flags : Flags) (svc : Listing) (workers : Nat) (hw : workers ≠ 0)
    (page : Int) (pages : List (Int × List Repository)) (hp : Pages svc page pages)
    (fuel : Nat) (hfuel : pages.length ≤ fuel) (room : Nat) (ev : List RunEvent) :
    listLoop flags svc workers workers fuel page room ev =
      (ev ++ pages.flatMap (pageEvents flags.dest flags.filter) ++
        [RunEvent.close, RunEvent.wgWait], RunOutcome.returned none) := by
  induction hp generalizing fuel room ev with
  | last page repos hsvc =>
    cases fuel with
    | zero => simp at hfuel
    | succ fuel =>
      simp [listLoop, hsvc, hw, pageEvents, closeAndWait_matched]
  | next page nextPage repos rest hsvc hne _ ih =>
    cases fuel with
    | zero => simp at hfuel
    | succ fuel =>
      have hf : rest.length ≤ fuel := by simpa using hfuel
      simp [listLoop, hsvc, hw, hne, pageEvents, ih fuel hf]

theorem Pages.length_pos {svc : Listing} {page : Int} {pages : List (Int × List Repository)}
    (hp : Pages svc page pages) : 0 < pages.length := by
  cases hp <;> simp

/-- The pages reached from a page are determined by the listing service. -/
theorem Pages.unique {svc : Listing} {page : Int} {l1 l2 : List (Int × List Repository)}
    (h1 : Pages svc page l1) (h2 : Pages svc page l2) : l1 = l2 := by
  induction h1 generalizing l2 with
  | last page repos hsvc =>
    cases h2 with
    | last _ repos2 hsvc2 =>
      rw [hsvc] at hsvc2
      simp only [Except.ok.injEq, Prod.mk.injEq] at hsvc2
      rw [hsvc2.1]
    | next _ nextPage2 repos2 rest2 hsvc2 hne2 _ =>
      rw [hsvc] at hsvc2
      simp only [Except.ok.injEq, Prod.mk.injEq] at hsvc2
      exact absurd hsvc2.2.symm hne2
  | next page nextPage repos rest hsvc hne _ ih =>
    cases h2 with
    | last _ repos2 hsvc2 =>
      rw [hsvc] at hsvc2
      simp only [Except.ok.injEq, Prod.mk.injEq] at hsvc2
      exact absurd hsvc2.2 hne
    | next _ nextPage2 repos2 rest2 hsvc2 hne2 hrest2 =>
      rw [hsvc] at hsvc2
      simp only [Except.ok.injEq, Prod.mk.injEq] at hsvc2
      obtain ⟨hr, hn⟩ := hsvc2
      subst hr
      subst hn
      rw [ih hrest2]

/-- Every page met on the way is itself the start of a way to the last page,
no longer than the whole way. -/
theorem Pages.of_mem {svc : Listing} {page : Int} {pages : List (Int × List Repository)}
    (hp : Pages svc page pages) (q : Int) (hq : q ∈ pages.map Prod.fst) :
    ∃ l, Pages svc q l ∧ l.length ≤ pages.length := by
  induction hp with
  | last page repos hsvc =>
    simp only [List.map_cons, List.map_nil, List.mem_singleton] at hq
    subst hq
    exact ⟨_, Pages.last _ repos hsvc, le_refl _⟩
  | next page nextPage repos rest hsvc hne hrest ih =>
    simp only [List.map_cons, List.mem_cons] at hq
    rcases hq with hq | hq
    · subst hq
      exact ⟨_, Pages.next _ nextPage repos rest hsvc hne hrest, le_refl _⟩
    · obtain ⟨l, hl, hlen⟩ := ih hq
      exact ⟨l, hl, by simp; omega⟩

/-- No page occurs twice on the way to the last page. -/
theorem Pages.nodup {svc : Listing} {page : Int} {pages : List (Int × List Repository)}
    (hp : Pages svc page pages) : (pages.map Prod.fst).Nodup := by
  induction hp with
  | last page repos hsvc => simp
  | next page nextPage repos rest hsvc hne hrest ih =>
    simp only [List.map_cons, List.nodup_cons]
    refine ⟨fun hmem => ?_, ih⟩
    obtain ⟨l, hl, hlen⟩ := Pages.of_mem hrest page hmem
    have := Pages.unique hl (Pages.next page nextPage repos rest hsvc hne hrest)
    rw [this] at hlen
    simp at hlen

theorem wrapInt_of_inRange (x : Int) (h0 : 0 ≤ x) (h1 : x < 2 ^ 63) : wrapInt x = x := by
  unfold wrapInt
  omega

theorem wrapInt32_of_inRange (x : Int) (h0 : 0 ≤ x) (h1 : x < 2 ^ 31) : wrapInt32 x = x := by
  unfold wrapInt32
  omega

/-- A run that passes the validation with a parallelism from 1 to 2^31 - 1, on a
machine with memory for the queue and the workers, creates the queue, starts
that many workers and enters the listing loop. -/
theorem run_eq_listLoop (mem : Memory) (flags : Flags) (svc : Listing) (fuel : Nat)
    (ht : flags.token ≠ []) (hd : flags.dest ≠ []) (hp1 : 0 < flags.parallel)
    (hp2 : flags.parallel < 2 ^ 31)
    (hq : mem.queueFits (flags.parallel * 10) = true)
    (hg : mem.workersFit flags.parallel.toNat = true) :
    run mem flags svc fuel =
      listLoop flags svc flags.parallel.toNat flags.parallel.toNat fuel 0
        (flags.parallel * 10).toNat
        ([RunEvent.makeChan (flags.parallel * 10), RunEvent.wgAdd flags.parallel] ++
          List.replicate flags.parallel.toNat RunEvent.spawn) := by
  have hw : wrapInt (flags.parallel * 10) = flags.parallel * 10 :=
    wrapInt_of_inRange _ (by omega) (by omega)
  have hc : wrapInt32 flags.parallel = flags.parallel :=
    wrapInt32_of_inRange _ (by omega) hp2
  have hn : ((flags.parallel.toNat : Nat) : Int) = flags.parallel := Int.toNat_of_nonneg (by omega)
  have hm : makechanPanics (flags.parallel * 10) = false := by
    unfold makechanPanics jobSize maxAlloc hchanSize
    rw [decide_eq_false_iff_not]
    omega
  unfold run
  rw [if_neg ht, if_neg hd]
  simp only [hw, hc, hm, hq, hg, hn]
  simp
  omega

/-- The jobs of the pages, written with the model's loop, are the jobs of the
records that pass the filter, in the order of the listing. -/
theorem jobs_of_pages (dest filter : GoString) (pages : List (Int × List Repository)) :
    pages.flatMap (fun pr => jobsOfPage dest filter pr.2) =
      ((pages.flatMap Prod.snd).filter
          (fun r => decide (filter = [] ∨ filter <:+: r.Name))).map
        (fun r => ({ repo := r.SSHURL, dest := filepathJoin [dest, r.Name] } : refreshJob)) := by
  induction pages with
  | nil => rfl
  | cons pr rest ih =>
    rw [List.flatMap_cons, List.flatMap_cons, ih, jobsOfPage_eq, List.filter_append,
      List.map_append]

/-- C4, as amended: for every run that passes the validation (non-empty token
and destination root) with a parallelism from 1 to 2^31 - 1 on a machine with
memory for the queue and the workers, and for every listing service whose pages,
followed from the first page through `NextPage`, reach a page without a next
page and never answer with an error, the run returns nil (given fuel for the
number of pages), requests exactly those pages, each once and in order, and the
jobs it sends are, in page order and in the order within each page, the jobs
(`repo` = SSH URL, `dest` = root joined with name) of exactly the records whose
name passes the filter: none dropped, duplicated or reordered. -/
theorem run_enqueues_pages_in_order (mem : Memory) (flags : Flags) (svc : Listing)
    (pages : List (Int × List Repository)) (fuel : Nat)
    (ht : flags.token ≠ []) (hd : flags.dest ≠ []) (hp1 : 0 < flags.parallel)
    (hp2 : flags.parallel < 2 ^ 31)
    (hq : mem.queueFits (flags.parallel * 10) = true)
    (hg : mem.workersFit flags.parallel.toNat = true)
    (hp : Pages svc 0 pages) (hfuel : pages.length ≤ fuel) :
    (run mem flags svc fuel).2 = RunOutcome.returned none ∧
    sentJobs (run mem flags svc fuel).1 =
      ((pages.flatMap Prod.snd).filter
          (fun r => decide (flags.filter = [] ∨ flags.filter <:+: r.Name))).map
        (fun r => ({ repo := r.SSHURL, dest := filepathJoin [flags.dest, r.Name] } :
          refreshJob)) ∧
    listedPages (run mem flags svc fuel).1 = pages.map Prod.fst ∧
    (pages.map Prod.fst).Nodup := by
  have hw : flags.parallel.toNat ≠ 0 := by omega
  rw [run_eq_listLoop mem flags svc fuel ht hd hp1 hp2 hq hg,
    listLoop_pages flags svc _ hw 0 pages hp fuel hfuel]
  refine ⟨rfl, ?_, ?_, Pages.nodup hp⟩
  · rw [← jobs_of_pages]
    simp [sentJobs_append, sentJobs_pages, sentJobs, sentJobs_replicate_spawn]
  · simp [listedPages_append, listedPages_pages, listedPages, listedPages_replicate_spawn]

theorem twoPages_pages :
    Pages twoPages 0 [(0, [repoNamed "r1", repoNamed "r2"]), (2, [repoNamed "r3"])] :=
  Pages.next 0 2 _ _ rfl (by decide) (Pages.last 2 _ rfl)

/-- Witness for `run_enqueues_pages_in_order`: page 1 = [r1, r2], page 2 = [r3],
no filter, parallelism 5, yields the jobs for r1, r2, r3 in that order. -/
theorem run_enqueues_pages_in_order_witness :
    (run ampleMemory (sampleFlags 5 "") twoPages 2).2 = RunOutcome.returned none ∧
    sentJobs (run ampleMemory (sampleFlags 5 "") twoPages 2).1 =
      [jobNamed "r1", jobNamed "r2", jobNamed "r3"] ∧
    listedPages (run ampleMemory (sampleFlags 5 "") twoPages 2).1 = [0, 2] := by
  have h := run_enqueues_pages_in_order ampleMemory (sampleFlags 5 "") twoPages _ 2
    (by decide) (by decide) (by decide) (by decide) rfl rfl twoPages_pages (by decide)
  refine ⟨h.1, ?_, ?_⟩
  · rw [h.2.1]; decide
  · rw [h.2.2.1]; decide

/-- C4, as stated, fails: the listing of the two pages [r1, r2] and [r3] reaches
its last page without error, yet with an empty token `run` returns the
configuration error and sends nothing; with a parallelism of zero it starts no
worker and the first send never completes, so nothing is sent; and with a
parallelism of 10^14 the creation of the queue panics.  In none of the three
runs are the jobs for r1, r2, r3 sent. -/
theorem run_enqueues_counterexample :
    Pages twoPages 0 [(0, [repoNamed "r1", repoNamed "r2"]), (2, [repoNamed "r3"])] ∧
    run ampleMemory noTokenFlags twoPages 10 =
      ([], RunOutcome.returned (some (GoError.errorsNew "-token must be provided"))) ∧
    run ampleMemory (sampleFlags 0 "") twoPages 10 =
      ([RunEvent.makeChan 0, RunEvent.wgAdd 0, RunEvent.list 0], RunOutcome.blocked) ∧
    run ampleMemory (sampleFlags 100000000000000 "") twoPages 10 =
      ([RunEvent.makeChan 1000000000000000],
        RunOutcome.panicked "makechan: size out of range") ∧
    sentJobs (run ampleMemory noTokenFlags twoPages 10).1 ≠
      [jobNamed "r1", jobNamed "r2", jobNamed "r3"] ∧
    sentJobs (run ampleMemory (sampleFlags 0 "") twoPages 10).1 ≠
      [jobNamed "r1", jobNamed "r2", jobNamed "r3"] ∧
    sentJobs (run ampleMemory (sampleFlags 100000000000000 "") twoPages 10).1 ≠
      [jobNamed "r1", jobNamed "r2", jobNamed "r3"] := by
  refine ⟨twoPages_pages, by decide, by decide, by decide, by decide, by decide, by decide⟩

theorem listLoop_spawned (flags : Flags) (svc : Listing) (workers : Nat) (counter : Int)
    (fuel : Nat) (page : Int) (room : Nat) (ev : List RunEvent) :
    spawned (listLoop flags svc workers counter fuel page room ev).1 = spawned ev := by
  have hsend : ∀ jobs : List refreshJob,
      List.count RunEvent.spawn (jobs.map RunEvent.send) = 0 := by
    intro jobs
    induction jobs with
    | nil => rfl
    | cons j rest ih => simp [List.count_cons, ih]
  have hwait : List.count RunEvent.spawn (closeAndWait workers counter).1 = 0 := by
    unfold closeAndWait
    split_ifs <;> simp [List.count_cons]
  induction fuel generalizing page room ev with
  | zero => rfl
  | succ fuel ih =>
    unfold listLoop
    cases hsvc : svc page with
    | error err => simp [spawned, List.count_cons]
    | ok pr =>
      obtain ⟨repos, nextPage⟩ := pr
      simp only
      by_cases hb : workers = 0 ∧ room < (jobsOfPage flags.dest flags.filter repos).length
      · rw [if_pos hb]
        simp only [spawned, List.count_append, hsend]
        simp [List.count_cons]
      · rw [if_neg hb]
        by_cases hn : nextPage = 0
        · rw [if_pos hn]
          simp [spawned, List.count_cons, hsend, hwait]
        · rw [if_neg hn, ih]
          simp [spawned, List.count_cons, hsend]

/-- For a parallelism from 1 to 2^31 - 1 and a machine with memory for the queue
and the workers, a run that passes the validation creates the queue with the
capacity `parallel * 10` and starts exactly `parallel` workers. -/
theorem run_positive_parallel (mem : Memory) (flags : Flags) (svc : Listing) (fuel : Nat)
    (ht : flags.token ≠ []) (hd : flags.dest ≠ []) (hp1 : 0 < flags.parallel)
    (hp2 : flags.parallel < 2 ^ 31)
    (hq : mem.queueFits (flags.parallel * 10) = true)
    (hg : mem.workersFit flags.parallel.toNat = true) :
    makechanPanics (flags.parallel * 10) = false ∧
    spawned (run mem flags svc fuel).1 = flags.parallel.toNat ∧
    0 < spawned (run mem flags svc fuel).1 := by
  have hs : spawned (run mem flags svc fuel).1 = flags.parallel.toNat := by
    rw [run_eq_listLoop mem flags svc fuel ht hd hp1 hp2 hq hg, listLoop_spawned]
    simp [spawned, List.count_cons, List.count_replicate_self]
  refine ⟨?_, hs, ?_⟩
  · unfold makechanPanics jobSize maxAlloc hchanSize
    rw [decide_eq_false_iff_not]
    omega
  · rw [hs]
    omega

/-- Witness for `run_positive_parallel`: the default parallelism of five gives
five workers. -/
theorem run_positive_parallel_witness :
    spawned (run ampleMemory (sampleFlags 5 "") twoPages 2).1 = 5 :=
  (run_positive_parallel ampleMemory (sampleFlags 5 "") twoPages 2
    (by decide) (by decide) (by decide) (by decide) rfl rfl).2.1

/-! ## Theorems: destination paths -/

theorem cleanLoop_nil (rooted : Bool) (fuel : Nat) (st : CleanState) :
    cleanLoop rooted fuel [] st = st := by
  cases fuel <;> rfl

theorem cleanStep_length (rooted : Bool) (c : Char) (rest : List Char) (st : CleanState) :
    (cleanStep rooted c rest st).1.length ≤ rest.length := by
  unfold cleanStep
  by_cases h1 : isPathSeparator c = true
  · simp [h1]
  · have hc : (!isPathSeparator c) = true := by simpa using h1
    rw [if_neg h1]
    split_ifs
    all_goals first
      | exact le_refl _
      | exact (by simp : rest.tail.length ≤ rest.length)
      | (simp only [List.dropWhile_cons, hc, if_true]
         exact (List.dropWhile_suffix _).length_le)

/-- The result of the main loop does not depend on the fuel, once the fuel
covers the length of what is left to read. -/
theorem cleanLoop_fuel (rooted : Bool) (f1 f2 : Nat) (p : List Char) (st : CleanState)
    (h1 : p.length ≤ f1) (h2 : p.length ≤ f2) :
    cleanLoop rooted f1 p st = cleanLoop rooted f2 p st := by
  induction f1 generalizing f2 p st with
  | zero =>
    have hp : p = [] := List.length_eq_zero.mp (Nat.le_zero.mp h1)
    subst hp
    rw [cleanLoop_nil, cleanLoop_nil]
  | succ f1 ih =>
    cases p with
    | nil => rw [cleanLoop_nil, cleanLoop_nil]
    | cons c rest =>
      cases f2 with
      | zero => simp at h2
      | succ f2 =>
        simp only [cleanLoop]
        have hl := cleanStep_length rooted c rest st
        simp only [List.length_cons] at h1 h2
        exact ih f2 _ _ (by omega) (by omega)

theorem cleanFrom_nil (rooted : Bool) (st : CleanState) : cleanFrom rooted [] st = st := rfl

theorem cleanFrom_cons (rooted : Bool) (c : Char) (rest : List Char) (st : CleanState) :
    cleanFrom rooted (c :: rest) st =
      cleanFrom rooted (cleanStep rooted c rest st).1 (cleanStep rooted c rest st).2 := by
  unfold cleanFrom
  simp only [List.length_cons, cleanLoop]
  exact cleanLoop_fuel rooted _ _ _ _ (cleanStep_length rooted c rest st) (le_refl _)

theorem cleanLoop_eq_cleanFrom (rooted : Bool) (fuel : Nat) (p : List Char) (st : CleanState)
    (h : p.length ≤ fuel) : cleanLoop rooted fuel p st = cleanFrom rooted p st :=
  cleanLoop_fuel rooted _ _ _ _ h (le_refl _)

theorem atElementEnd_append (rest q : List Char) :
    atElementEnd (rest ++ Separator :: q) = atElementEnd rest := by
  cases rest <;> simp [atElementEnd, isPathSeparator]

theorem takeWhile_append_separator (l q : List Char) :
    (l ++ Separator :: q).takeWhile (fun b => !isPathSeparator b) =
      l.takeWhile (fun b => !isPathSeparator b) := by
  induction l with
  | nil => simp [isPathSeparator]
  | cons a l ih =>
    by_cases ha : isPathSeparator a = true
    · simp [List.takeWhile_cons, ha]
    · simp [List.takeWhile_cons, ha, ih]

theorem dropWhile_append_separator (l q : List Char) :
    (l ++ Separator :: q).dropWhile (fun b => !isPathSeparator b) =
      l.dropWhile (fun b => !isPathSeparator b) ++ Separator :: q := by
  induction l with
  | nil => simp [isPathSeparator]
  | cons a l ih =>
    by_cases ha : isPathSeparator a = true
    · simp [List.dropWhile_cons, ha]
    · simp [List.dropWhile_cons, ha, ih]

theorem dotdot_test_append (c : Char) (rest q : List Char) :
    (c = '.' ∧ (rest ++ Separator :: q).head? = some '.' ∧
        atElementEnd (rest ++ Separator :: q).tail = true) ↔
      (c = '.' ∧ rest.head? = some '.' ∧ atElementEnd rest.tail = true) := by
  cases rest with
  | nil => simp [Separator]
  | cons d r2 => simp [atElementEnd_append]

theorem tail_append_of_head (rest q : List Char) (h : rest.head? = some '.') :
    (rest ++ Separator :: q).tail = rest.tail ++ Separator :: q := by
  cases rest with
  | nil => simp at h
  | cons d r2 => rfl

/-- A turn of the loop does not look past the next separator: with a separator
and more path appended to what is left to read, the turn does the same and
leaves the appended part unread. -/
theorem cleanStep_append (rooted : Bool) (c : Char) (rest q : List Char) (st : CleanState) :
    cleanStep rooted c (rest ++ Separator :: q) st =
      ((cleanStep rooted c rest st).1 ++ Separator :: q, (cleanStep rooted c rest st).2) := by
  unfold cleanStep
  by_cases h1 : isPathSeparator c = true
  · simp [h1]
  · rw [if_neg h1, if_neg h1, atElementEnd_append]
    by_cases h2 : c = '.' ∧ atElementEnd rest = true
    · rw [if_pos h2, if_pos h2]
    · rw [if_neg h2, if_neg h2]
      by_cases h3 : c = '.' ∧ rest.head? = some '.' ∧ atElementEnd rest.tail = true
      · rw [if_pos h3, if_pos ((dotdot_test_append c rest q).2 h3),
          tail_append_of_head rest q h3.2.1]
        split_ifs <;> rfl
      · rw [if_neg h3, if_neg (fun h => h3 ((dotdot_test_append c rest q).1 h)),
          ← List.cons_append, takeWhile_append_separator, dropWhile_append_separator]

/-- Reading a path, a separator and more path is reading the path, then the
separator and the rest from the state reached. -/
theorem cleanFrom_append (rooted : Bool) (p q : List Char) (st : CleanState) :
    cleanFrom rooted (p ++ Separator :: q) st =
      cleanFrom rooted (Separator :: q) (cleanFrom rooted p st) := by
  generalize hn : p.length = n
  induction n using Nat.strong_induction_on generalizing p st with
  | _ n ih =>
    cases p with
    | nil => rfl
    | cons c rest =>
      rw [List.cons_append, cleanFrom_cons, cleanStep_append, cleanFrom_cons rooted c rest]
      have hl := cleanStep_length rooted c rest st
      exact ih _ (by rw [← hn]; simp only [List.length_cons]; omega) _ _ rfl

theorem isPathSeparator_iff (b : Char) : isPathSeparator b = true ↔ b = Separator := by
  simp [isPathSeparator]

theorem atElementEnd_of_noSeparator (l : List Char) (hs : Separator ∉ l)
    (h : atElementEnd l = true) : l = [] := by
  cases l with
  | nil => rfl
  | cons b t =>
    simp only [atElementEnd, isPathSeparator_iff] at h
    subst h
    simp at hs

/-- A plain name is read in one turn as a real path element: the separator is
added if needed and the whole name is copied. -/
theorem cleanStep_plain (rooted : Bool) (c : Char) (rest : List Char)
    (hp : plainName (c :: rest)) (st : CleanState) :
    cleanStep rooted c rest st =
      ([], ⟨appendSeparator rooted st.out ++ c :: rest, st.dotdot⟩) := by
  obtain ⟨_, hs, hdot, hdotdot⟩ := hp
  have hc : ¬ isPathSeparator c = true := by
    rw [isPathSeparator_iff]
    intro h
    subst h
    simp at hs
  have hrest : Separator ∉ rest := fun h => hs (List.mem_cons_of_mem _ h)
  have h2 : ¬ (c = '.' ∧ atElementEnd rest = true) := by
    rintro ⟨h, he⟩
    have := atElementEnd_of_noSeparator rest hrest he
    subst h
    subst this
    exact hdot rfl
  have h3 : ¬ (c = '.' ∧ rest.head? = some '.' ∧ atElementEnd rest.tail = true) := by
    rintro ⟨h, hh, he⟩
    cases rest with
    | nil => simp at hh
    | cons d r2 =>
      simp only [List.head?_cons, Option.some.injEq] at hh
      have hr2 : Separator ∉ r2 := fun h => hrest (List.mem_cons_of_mem _ h)
      have := atElementEnd_of_noSeparator r2 hr2 he
      subst h
      subst hh
      subst this
      exact hdotdot rfl
  have hall : ∀ x ∈ c :: rest, (fun b => !isPathSeparator b) x = true := by
    intro x hx
    have hx2 : x ≠ Separator := fun h => hs (h ▸ hx)
    simp [isPathSeparator, hx2]
  unfold cleanStep
  rw [if_neg hc, if_neg h2, if_neg h3, List.takeWhile_eq_self_iff.2 hall,
    List.dropWhile_eq_nil_iff.2 hall]

/-- From any state, reading a separator and then a plain name appends the name
as a path element. -/
theorem cleanFrom_separator_plain (rooted : Bool) (name : List Char) (hp : plainName name)
    (st : CleanState) :
    cleanFrom rooted (Separator :: name) st =
      ⟨appendSeparator rooted st.out ++ name, st.dotdot⟩ := by
  have hsep : cleanStep rooted Separator name st = (name, st) := by
    simp [cleanStep, isPathSeparator]
  rw [cleanFrom_cons, hsep]
  cases name with
  | nil => exact absurd rfl hp.1
  | cons c rest =>
    rw [cleanFrom_cons, cleanStep_plain rooted c rest hp, cleanFrom_nil]

theorem cleanFrom_plain (rooted : Bool) (name : List Char) (hp : plainName name)
    (st : CleanState) :
    cleanFrom rooted name st = ⟨appendSeparator rooted st.out ++ name, st.dotdot⟩ := by
  cases name with
  | nil => exact absurd rfl hp.1
  | cons c rest =>
    rw [cleanFrom_cons, cleanStep_plain rooted c rest hp, cleanFrom_nil]

/-- Where the backtracking loop stops: not below `dotdot`, and either at
`dotdot` or at a separator. -/
theorem backtrack_spec (out : List Char) (dotdot w : Nat) (h : dotdot ≤ w) :
    dotdot ≤ backtrack out dotdot w ∧ backtrack out dotdot w ≤ w ∧
      (backtrack out dotdot w = dotdot ∨
        isPathSeparator (out.getD (backtrack out dotdot w) Separator) = true) := by
  induction w with
  | zero =>
    have : dotdot = 0 := Nat.le_zero.mp h
    subst this
    simp [backtrack]
  | succ w ih =>
    unfold backtrack
    by_cases hc : w + 1 > dotdot ∧ (!isPathSeparator (out.getD (w + 1) Separator)) = true
    · rw [if_pos hc]
      have := ih (by omega)
      exact ⟨this.1, by omega, this.2.2⟩
    · rw [if_neg hc]
      refine ⟨h, le_refl _, ?_⟩
      by_cases hw : w + 1 > dotdot
      · right
        have : ¬ (!isPathSeparator (out.getD (w + 1) Separator)) = true := fun h2 => hc ⟨hw, h2⟩
        simpa using this
      · left
        omega

/-- A property of the state that every turn of the loop keeps holds after the
loop. -/
theorem cleanFrom_invariant (rooted : Bool) (P : CleanState → Prop)
    (hstep : ∀ c rest st, P st → P (cleanStep rooted c rest st).2)
    (p : List Char) (st : CleanState) (h : P st) : P (cleanFrom rooted p st) := by
  generalize hn : p.length = n
  induction n using Nat.strong_induction_on generalizing p st with
  | _ n ih =>
    cases p with
    | nil => exact h
    | cons c rest =>
      rw [cleanFrom_cons]
      have hl := cleanStep_length rooted c rest st
      exact ih _ (by rw [← hn]; simp only [List.length_cons]; omega) _ _
        (hstep c rest st h) rfl

theorem cleanStep_skip (rooted : Bool) (c : Char) (rest : List Char) (st : CleanState)
    (h : isPathSeparator c = true ∨ (c = '.' ∧ atElementEnd rest = true)) :
    cleanStep rooted c rest st = (rest, st) := by
  unfold cleanStep
  by_cases h1 : isPathSeparator c = true
  · rw [if_pos h1]
  · rw [if_neg h1, if_pos (h.resolve_left h1)]

theorem cleanStep_dotdot_back (rooted : Bool) (c : Char) (rest : List Char) (st : CleanState)
    (h1 : ¬ isPathSeparator c = true) (h2 : ¬ (c = '.' ∧ atElementEnd rest = true))
    (h3 : c = '.' ∧ rest.head? = some '.' ∧ atElementEnd rest.tail = true)
    (h4 : st.out.length > st.dotdot) :
    cleanStep rooted c rest st =
      (rest.tail,
        ⟨st.out.take (backtrack st.out st.dotdot (st.out.length - 1)), st.dotdot⟩) := by
  unfold cleanStep
  rw [if_neg h1, if_neg h2, if_pos h3, if_pos h4]

theorem cleanStep_dotdot_rooted (c : Char) (rest : List Char) (st : CleanState)
    (h1 : ¬ isPathSeparator c = true) (h2 : ¬ (c = '.' ∧ atElementEnd rest = true))
    (h3 : c = '.' ∧ rest.head? = some '.' ∧ atElementEnd rest.tail = true)
    (h4 : ¬ st.out.length > st.dotdot) :
    cleanStep true c rest st = (rest.tail, st) := by
  unfold cleanStep
  rw [if_neg h1, if_neg h2, if_pos h3, if_neg h4]
  rfl

theorem cleanStep_dotdot_relative (c : Char) (rest : List Char) (st : CleanState)
    (h1 : ¬ isPathSeparator c = true) (h2 : ¬ (c = '.' ∧ atElementEnd rest = true))
    (h3 : c = '.' ∧ rest.head? = some '.' ∧ atElementEnd rest.tail = true)
    (h4 : ¬ st.out.length > st.dotdot) :
    cleanStep false c rest st =
      (rest.tail,
        ⟨(if st.out.length > 0 then st.out ++ [Separator] else st.out) ++ ['.', '.'],
          ((if st.out.length > 0 then st.out ++ [Separator] else st.out) ++
            ['.', '.']).length⟩) := by
  unfold cleanStep
  rw [if_neg h1, if_neg h2, if_pos h3, if_neg h4]
  rfl

theorem cleanStep_element (rooted : Bool) (c : Char) (rest : List Char) (st : CleanState)
    (h1 : ¬ isPathSeparator c = true) (h2 : ¬ (c = '.' ∧ atElementEnd rest = true))
    (h3 : ¬ (c = '.' ∧ rest.head? = some '.' ∧ atElementEnd rest.tail = true)) :
    cleanStep rooted c rest st =
      ((c :: rest).dropWhile (fun b => !isPathSeparator b),
        ⟨appendSeparator rooted st.out ++
          (c :: rest).takeWhile (fun b => !isPathSeparator b), st.dotdot⟩) := by
  unfold cleanStep
  rw [if_neg h1, if_neg h2, if_neg h3]

theorem cleanStep_rootedInv (c : Char) (rest : List Char) (st : CleanState)
    (h : RootedInv st) : RootedInv (cleanStep true c rest st).2 := by
  obtain ⟨hh, hd⟩ := h
  by_cases h1 : isPathSeparator c = true
  · rw [cleanStep_skip _ _ _ _ (Or.inl h1)]
    exact ⟨hh, hd⟩
  by_cases h2 : c = '.' ∧ atElementEnd rest = true
  · rw [cleanStep_skip _ _ _ _ (Or.inr h2)]
    exact ⟨hh, hd⟩
  by_cases h3 : c = '.' ∧ rest.head? = some '.' ∧ atElementEnd rest.tail = true
  · by_cases h4 : st.out.length > st.dotdot
    · rw [cleanStep_dotdot_back _ _ _ _ h1 h2 h3 h4]
      have hb := backtrack_spec st.out st.dotdot (st.out.length - 1) (by omega)
      refine ⟨?_, hd⟩
      simp only [List.head?_take]
      rw [if_neg (by omega), hh]
    · rw [cleanStep_dotdot_rooted _ _ _ h1 h2 h3 h4]
      exact ⟨hh, hd⟩
  · rw [cleanStep_element _ _ _ _ h1 h2 h3]
    refine ⟨?_, hd⟩
    cases hout : st.out with
    | nil => simp [hout] at hh
    | cons a t =>
      rw [hout] at hh
      simp only [List.head?_cons, Option.some.injEq] at hh
      subst hh
      unfold appendSeparator
      split_ifs <;> simp

theorem relativeOut_nil : RelativeOut [] := by
  simp [RelativeOut]

theorem relativeOut_dotdot : RelativeOut ['.', '.'] := by
  simp [RelativeOut, Separator]

theorem relativeOut_append (out x : List Char) (h : RelativeOut out) (hne : out ≠ []) :
    RelativeOut (out ++ Separator :: x) := by
  obtain ⟨h1, h2, h3⟩ := h
  cases out with
  | nil => exact absurd rfl hne
  | cons a t =>
    cases t with
    | nil =>
      have ha : a ≠ '.' := fun h => h1 (by rw [h])
      have hs : a ≠ Separator := by simpa using h3
      simp [RelativeOut, ha, hs]
    | cons b t2 =>
      have hs : a ≠ Separator := by simpa using h3
      refine ⟨by simp, ?_, by simpa using hs⟩
      simpa using h2

theorem relativeOut_take (out : List Char) (r : Nat) (h : RelativeOut out)
    (hr : r < out.length)
    (h1 : r = 1 → isPathSeparator (out.getD 1 Separator) = true) :
    RelativeOut (out.take r) := by
  obtain ⟨hd, ht, hh⟩ := h
  cases out with
  | nil => simp at hr
  | cons a t =>
    have hs : a ≠ Separator := by simpa using hh
    cases r with
    | zero => simpa using relativeOut_nil
    | succ r =>
      cases t with
      | nil => simp at hr
      | cons b t2 =>
        cases r with
        | zero =>
          have hb : b = Separator := by
            have := h1 rfl
            simpa [isPathSeparator] using this
          subst hb
          have ha : a ≠ '.' := by simpa using ht
          simp [RelativeOut, ha, hs]
        | succ r =>
          refine ⟨by simp, ?_, by simpa using hs⟩
          simpa using ht

theorem relativeOut_element (c : Char) (rest : List Char)
    (h1 : ¬ isPathSeparator c = true) (h2 : ¬ (c = '.' ∧ atElementEnd rest = true)) :
    RelativeOut ((c :: rest).takeWhile (fun b => !isPathSeparator b)) := by
  have hc : (!isPathSeparator c) = true := by simpa using h1
  have hs : c ≠ Separator := fun h => h1 ((isPathSeparator_iff c).2 h)
  simp only [List.takeWhile_cons, hc, if_true]
  cases rest with
  | nil =>
    have : c ≠ '.' := fun h => h2 ⟨h, rfl⟩
    simp [RelativeOut, this, hs]
  | cons b t =>
    by_cases hb : isPathSeparator b = true
    · have : c ≠ '.' := fun h => h2 ⟨h, by simpa [atElementEnd] using hb⟩
      simp [RelativeOut, List.takeWhile_cons, hb, this, hs]
    · have hbs : b ≠ Separator := fun h => hb ((isPathSeparator_iff b).2 h)
      simp [RelativeOut, List.takeWhile_cons, hb, hbs, hs]

theorem cleanStep_relativeInv (c : Char) (rest : List Char) (st : CleanState)
    (h : RelativeInv st) : RelativeInv (cleanStep false c rest st).2 := by
  obtain ⟨hd, ho⟩ := h
  by_cases h1 : isPathSeparator c = true
  · rw [cleanStep_skip _ _ _ _ (Or.inl h1)]
    exact ⟨hd, ho⟩
  by_cases h2 : c = '.' ∧ atElementEnd rest = true
  · rw [cleanStep_skip _ _ _ _ (Or.inr h2)]
    exact ⟨hd, ho⟩
  by_cases h3 : c = '.' ∧ rest.head? = some '.' ∧ atElementEnd rest.tail = true
  · by_cases h4 : st.out.length > st.dotdot
    · rw [cleanStep_dotdot_back _ _ _ _ h1 h2 h3 h4]
      have hb := backtrack_spec st.out st.dotdot (st.out.length - 1) (by omega)
      refine ⟨hd, relativeOut_take _ _ ho (by omega) ?_⟩
      intro hr1
      rcases hb.2.2 with hb2 | hb2
      · exact absurd (hb2.symm.trans hr1) hd
      · rw [hr1] at hb2
        exact hb2
    · rw [cleanStep_dotdot_relative _ _ _ h1 h2 h3 h4]
      by_cases hlen : st.out.length > 0
      · rw [if_pos hlen]
        refine ⟨by simp, ?_⟩
        have hne : st.out ≠ [] := by
          intro h
          rw [h] at hlen
          simp at hlen
        have := relativeOut_append st.out ['.', '.'] ho hne
        simpa using this
      · rw [if_neg hlen]
        have hnil : st.out = [] := List.length_eq_zero.mp (by omega)
        rw [hnil]
        exact ⟨by simp, relativeOut_dotdot⟩
  · rw [cleanStep_element _ _ _ _ h1 h2 h3]
    refine ⟨hd, ?_⟩
    unfold appendSeparator
    by_cases hlen : st.out.length = 0
    · have hnil : st.out = [] := List.length_eq_zero.mp hlen
      rw [hnil]
      simpa using relativeOut_element c rest h1 h2
    · have hne : st.out ≠ [] := fun h => hlen (by rw [h]; rfl)
      rw [if_pos (Or.inr ⟨rfl, hlen⟩)]
      have := relativeOut_append st.out
        ((c :: rest).takeWhile (fun b => !isPathSeparator b)) ho hne
      simpa using this

theorem cleanFrom_rootedInv (p : List Char) :
    RootedInv (cleanFrom true p ⟨[Separator], 1⟩) :=
  cleanFrom_invariant true RootedInv cleanStep_rootedInv p _ ⟨rfl, le_refl _⟩

theorem cleanFrom_relativeInv (p : List Char) :
    RelativeInv (cleanFrom false p ⟨[], 0⟩) :=
  cleanFrom_invariant false RelativeInv cleanStep_relativeInv p _
    ⟨by decide, relativeOut_nil⟩

/-- The function `filepath.Clean` on a rooted path, through the loop with exact fuel. -/
theorem filepathClean_rooted (c : Char) (rest : List Char) (h : isPathSeparator c = true) :
    filepathClean (c :: rest) = (cleanFrom true rest ⟨[Separator], 1⟩).out := by
  have hinv := cleanFrom_rootedInv rest
  have hne : (cleanFrom true rest ⟨[Separator], 1⟩).out.length ≠ 0 := by
    intro h0
    have := List.length_eq_zero.mp h0
    rw [RootedInv, this] at hinv
    simp at hinv
  unfold filepathClean
  simp only [h, if_true]
  rw [cleanLoop_eq_cleanFrom true _ rest _ (by simp), if_neg hne]

/-- The function `filepath.Clean` on a non-empty path that is not rooted, through the
loop with exact fuel. -/
theorem filepathClean_relative (c : Char) (rest : List Char) (h : ¬ isPathSeparator c = true) :
    filepathClean (c :: rest) =
      if (cleanFrom false (c :: rest) ⟨[], 0⟩).out.length = 0 then ['.']
      else (cleanFrom false (c :: rest) ⟨[], 0⟩).out := by
  have hf : isPathSeparator c = false := by simpa using h
  unfold filepathClean
  simp only [hf]
  rfl

/-- The destination of a plain name: `filepath.Join` of a root and a plain name is
the entry of that name directly under the cleaned root. -/
theorem filepathJoin_plain (root name : GoString) (hp : plainName name) :
    filepathJoin [root, name] = entryUnder (filepathClean root) name := by
  have hname : name ≠ [] := hp.1
  cases root with
  | nil =>
    have h1 : filepathJoin [[], name] = filepathClean name := by
      simp [filepathJoin, hname, stringsJoin]
    rw [h1]
    cases name with
    | nil => exact absurd rfl hname
    | cons c rest =>
      have hc : ¬ isPathSeparator c = true := by
        rw [isPathSeparator_iff]
        intro h
        exact hp.2.1 (h ▸ List.mem_cons_self _ _)
      rw [filepathClean_relative c rest hc, cleanFrom_plain false (c :: rest) hp]
      simp [appendSeparator, entryUnder, filepathClean]
  | cons c rest =>
    have h1 : filepathJoin [c :: rest, name] =
        filepathClean (c :: (rest ++ Separator :: name)) := by
      simp [filepathJoin, stringsJoin]
    rw [h1]
    by_cases hc : isPathSeparator c = true
    · rw [filepathClean_rooted c _ hc, filepathClean_rooted c rest hc, cleanFrom_append,
        cleanFrom_separator_plain true name hp]
      have hinv := cleanFrom_rootedInv rest
      generalize cleanFrom true rest ⟨[Separator], 1⟩ = S at hinv ⊢
      obtain ⟨hh, _⟩ := hinv
      cases hS : S.out with
      | nil => simp [hS] at hh
      | cons a t =>
        rw [hS] at hh
        simp only [List.head?_cons, Option.some.injEq] at hh
        subst hh
        cases t with
        | nil => simp [appendSeparator, entryUnder, Separator]
        | cons b t2 => simp [appendSeparator, entryUnder, Separator]
    · rw [filepathClean_relative c _ hc, filepathClean_relative c rest hc,
        ← List.cons_append, cleanFrom_append, cleanFrom_separator_plain false name hp]
      have hinv := cleanFrom_relativeInv (c :: rest)
      generalize cleanFrom false (c :: rest) ⟨[], 0⟩ = S at hinv ⊢
      obtain ⟨_, hdot, _, hh⟩ := hinv
      cases hS : S.out with
      | nil => simp [appendSeparator, entryUnder, hname]
      | cons a t =>
        rw [hS] at hh hdot
        have ha : a ≠ Separator := by simpa using hh
        have h2 : a :: t ≠ [Separator] := by
          intro h
          simp only [List.cons.injEq] at h
          exact ha h.1
        simp [appendSeparator, entryUnder, hdot, h2]

theorem entryUnder_injective (cleanRoot n1 n2 : GoString)
    (h : entryUnder cleanRoot n1 = entryUnder cleanRoot n2) : n1 = n2 := by
  unfold entryUnder at h
  split_ifs at h
  · exact h
  · simpa using h
  · simpa using h

theorem entryUnder_ends_with_name (cleanRoot name : GoString) :
    ∃ pre, entryUnder cleanRoot name = pre ++ name ∧
      (pre = [] ∨ pre.getLast? = some Separator) := by
  unfold entryUnder
  split_ifs
  · exact ⟨[], rfl, Or.inl rfl⟩
  · exact ⟨[Separator], rfl, Or.inr rfl⟩
  · exact ⟨cleanRoot ++ [Separator], by simp, Or.inr (by simp)⟩

/-- C9, as amended: for every destination root and every repository name that
is a plain path element (not empty, without a separator, neither `.` nor `..`),
the destination of the emitted job is the entry named after the repository
directly under the cleaned destination root (the cleaned root, one separator,
the name; the name alone under `.`; no second separator under `/`), so it ends
with the repository name as its final path element, and two plain names with
the same destination are the same name. -/
theorem jobFor_dest_plain (dest filter : GoString) (repo : Repository) (job : refreshJob)
    (hp : plainName repo.Name) (h : jobFor dest filter repo = some job) :
    job.dest = entryUnder (filepathClean dest) repo.Name ∧
    (∃ pre, job.dest = pre ++ repo.Name ∧ (pre = [] ∨ pre.getLast? = some Separator)) ∧
    (∀ (repo2 : Repository) (job2 : refreshJob), plainName repo2.Name →
      jobFor dest filter repo2 = some job2 → job2.dest = job.dest →
      repo2.Name = repo.Name) := by
  have hd : ∀ (r : Repository) (j : refreshJob), plainName r.Name →
      jobFor dest filter r = some j → j.dest = entryUnder (filepathClean dest) r.Name := by
    intro r j hr hj
    unfold jobFor at hj
    split at hj
    · simp at hj
    · simp only [Option.some.injEq] at hj
      subst hj
      exact filepathJoin_plain dest r.Name hr
  have h1 := hd repo job hp h
  refine ⟨h1, ?_, ?_⟩
  · rw [h1]
    exact entryUnder_ends_with_name _ _
  · intro repo2 job2 hp2 h2 heq
    rw [hd repo2 job2 hp2 h2, h1] at heq
    exact entryUnder_injective _ _ _ heq

/-- Witness for `jobFor_dest_plain`: the repository `r` under the root `bak` is
mirrored at `bak/r`. -/
theorem jobFor_dest_plain_witness :
    (jobNamed "r").dest = entryUnder (filepathClean "bak".toList) (repoNamed "r").Name ∧
    (jobNamed "r").dest = "bak/r".toList :=
  ⟨(jobFor_dest_plain "bak".toList [] (repoNamed "r") (jobNamed "r")
      (by decide) (by decide)).1, by decide⟩

/-- C9, as stated, fails: under the root `bak` the name `..` is sent to `.`,
which is not under `bak` and does not end in `..`; and the distinct names `r`
and `x/../r` are sent to the same destination `bak/r`. -/
theorem jobFor_dest_counterexample :
    Option.map refreshJob.dest (jobFor "bak".toList [] (repoNamed "..")) = some ".".toList ∧
    (repoNamed "r").Name ≠ (repoNamed "x/../r").Name ∧
    Option.map refreshJob.dest (jobFor "bak".toList [] (repoNamed "r")) =
      some "bak/r".toList ∧
    Option.map refreshJob.dest (jobFor "bak".toList [] (repoNamed "x/../r")) =
      some "bak/r".toList := by
  refine ⟨by decide, by decide, by decide, by decide⟩

/-! ## Theorems: a second transition -/

/-- What the code contributes to a repeated transition: if the existence check
and the open succeed and the fetch reports "already up to date" without
changing the world, then `cloneOrFetch` makes exactly the stat, the open and
the fetch, clones nothing, leaves the world as it was and returns nil. -/
theorem cloneOrFetch_up_to_date {σ : Type} (w : World σ) (job : refreshJob) (s : σ)
    (hs : w.osStat s job.dest = none) (ho : w.plainOpen s job.dest = none)
    (hf : w.fetch s job.dest fetchRefSpecs = (s, some GoError.noErrAlreadyUpToDate)) :
    (cloneOrFetch w job s).err = none ∧ (cloneOrFetch w job s).state = s ∧
    (cloneOrFetch w job s).trace =
      [Action.osStat job.dest, Action.plainOpen job.dest,
        Action.fetch job.dest fetchRefSpecs] := by
  simp [cloneOrFetch, hs, ho, hf]

/-- In a world where a fetch into an existing mirror finds it up to date, a
second transition after a successful first one takes the update branch, returns
nil and leaves the world as it was. -/
theorem cloneOrFetch_twice_mirrorWorld :
    (cloneOrFetch mirrorWorld sampleJob []).err = none ∧
    (cloneOrFetch mirrorWorld sampleJob
      (cloneOrFetch mirrorWorld sampleJob []).state).err = none ∧
    (cloneOrFetch mirrorWorld sampleJob
      (cloneOrFetch mirrorWorld sampleJob []).state).trace =
        [Action.osStat sampleJob.dest, Action.plainOpen sampleJob.dest,
          Action.fetch sampleJob.dest fetchRefSpecs] ∧
    (cloneOrFetch mirrorWorld sampleJob
      (cloneOrFetch mirrorWorld sampleJob []).state).state =
        (cloneOrFetch mirrorWorld sampleJob []).state := by
  refine ⟨by decide, by decide, by decide, by decide⟩

/-- In a world where the transport rejects the fixed ref-spec for `master`, the
first transition (a clone) succeeds and the second one, with nothing changed in
between, takes the update branch and returns the fetch error. -/
theorem cloneOrFetch_twice_noMasterWorld :
    (cloneOrFetch noMasterWorld sampleJob []).err = none ∧
    (cloneOrFetch noMasterWorld sampleJob
      (cloneOrFetch noMasterWorld sampleJob []).state).err =
        some (GoError.withStack (GoError.other 128)) := by
  refine ⟨by decide, by decide⟩

end Ghbackup
